import Mathlib

/-!
Verification development for the checkpoint-manager design described by the
repository's documentation notebook `docs/guides/use_checkpointing.ipynb`
and its specification: a Serializer (`encode` / `decode` with an optional
structure template), a Store keyed by step numbers with an overwrite guard
and a retention policy, and a Manager with a FIFO asynchronous save queue.

The repository contains no implementation sources, only the notebook that
calls an external checkpoint library; the definitions below are therefore
modelled from the specification's component contracts (and, where the
notebook output pins a behaviour, from the notebook), as noted on each
definition.
-/

/-- Modelled from the spec: keys of a StateTree mapping level.  The spec's
data model uses string keys for dictionary fields and "sequential integer
keys" for the generic representation of ordered containers, so a key is
either a field name or an integer index. -/
inductive CKey where
  | name (s : String)
  | index (i : Nat)
deriving DecidableEq

/-- Modelled from the spec: the serialized byte-level representation is
abstracted as a stream of atomic tokens (`encode(tree) -> bytes`).  A token
records a primitive value, an array leaf with shape / element-type / data,
a non-serializable marker, a container header with its entry count, or a
dictionary key. -/
inductive Tok where
  | tPrim (s : String)
  | tArr (shape : List Nat) (dtype : String) (data : List Int)
  | tFunc (fname : String)
  | tList (n : Nat)
  | tDict (n : Nat)
  | tKey (k : CKey)
deriving DecidableEq

mutual
/-- Modelled from the spec and notebook: a StateTree / pytree.  Leaves are
primitive values, numeric arrays (with shape and element type, and a
`device` flag distinguishing device (JAX) arrays from host (NumPy) arrays),
or non-serializable function-valued fields (such as a TrainState's
`apply_fn` and `tx`); inner nodes are ordered containers (lists) and
string-keyed mappings. -/
inductive JTree where
  | prim (s : String)
  | arr (device : Bool) (shape : List Nat) (dtype : String) (data : List Int)
  | func (fname : String)
  | list (items : JList)
  | dict (entries : JDict)

/-- Spine of an ordered container of `JTree` nodes. -/
inductive JList where
  | lnil
  | lcons (hd : JTree) (tl : JList)

/-- Spine of a keyed mapping of `JTree` nodes. -/
inductive JDict where
  | dnil
  | dcons (key : CKey) (val : JTree) (tl : JDict)
end

/-- Number of elements of a `JList`. -/
def llen : JList → Nat
  | .lnil => 0
  | .lcons _ t => llen t + 1

/-- Number of entries of a `JDict`. -/
def dlen : JDict → Nat
  | .dnil => 0
  | .dcons _ _ t => dlen t + 1

/-- Element of a `JList` at a position, if any. -/
def nthL : JList → Nat → Option JTree
  | .lnil, _ => none
  | .lcons h _, 0 => some h
  | .lcons _ t, m + 1 => nthL t m

/-- First value stored under a key in a `JDict`, if any. -/
def dlookupD (k : CKey) : JDict → Option JTree
  | .dnil => none
  | .dcons k2 v t => if k = k2 then some v else dlookupD k t

/-- Keys of a `JDict`, in order. -/
def dkeys : JDict → List CKey
  | .dnil => []
  | .dcons k _ t => k :: dkeys t

/-- Boolean membership of a key in a list of keys. -/
def keyIn (k : CKey) : List CKey → Bool
  | [] => false
  | k2 :: r => if k = k2 then true else keyIn k r

/-- Whether a tree node is a non-serializable function-valued leaf. -/
def isFunc : JTree → Bool
  | .func _ => true
  | _ => false

mutual
/-- Modelled from the spec: the token stream written for a tree
(`encode(tree) -> bytes`).  Containers are written as a header carrying the
entry count followed by the encodings of the entries; array leaves are
written with their shape, element type and data (device placement is not
part of the stored representation). -/
def encodeTree : JTree → List Tok
  | .prim s => [.tPrim s]
  | .arr _ sh dt da => [.tArr sh dt da]
  | .func f => [.tFunc f]
  | .list items => .tList (llen items) :: encodeList items
  | .dict es => .tDict (dlen es) :: encodeDict es

/-- Token stream of the elements of a list, in order. -/
def encodeList : JList → List Tok
  | .lnil => []
  | .lcons h t => encodeTree h ++ encodeList t

/-- Token stream of the entries of a dictionary: each entry is its key
token followed by the encoding of its value. -/
def encodeDict : JDict → List Tok
  | .dnil => []
  | .dcons k v t => .tKey k :: (encodeTree v ++ encodeDict t)
end

mutual
/-- Fuel-bounded parser for one tree from a token stream, returning the
tree and the remaining tokens.  Array tokens parse to host arrays (the
stored representation carries no device placement). -/
def parseTree : Nat → List Tok → Option (JTree × List Tok)
  | 0, _ => none
  | _ + 1, [] => none
  | _ + 1, .tPrim s :: r => some (.prim s, r)
  | _ + 1, .tArr sh dt da :: r => some (.arr false sh dt da, r)
  | _ + 1, .tFunc f :: r => some (.func f, r)
  | fuel + 1, .tList n :: r =>
    match parseListN fuel n r with
    | some (l, r2) => some (.list l, r2)
    | none => none
  | fuel + 1, .tDict n :: r =>
    match parseDictN fuel n r with
    | some (d, r2) => some (.dict d, r2)
    | none => none
  | _ + 1, .tKey _ :: _ => none

/-- Fuel-bounded parser for a given number of list elements. -/
def parseListN : Nat → Nat → List Tok → Option (JList × List Tok)
  | _, 0, r => some (.lnil, r)
  | 0, _ + 1, _ => none
  | fuel + 1, n + 1, r =>
    match parseTree fuel r with
    | some (t, r2) =>
      match parseListN fuel n r2 with
      | some (l, r3) => some (.lcons t l, r3)
      | none => none
    | none => none

/-- Fuel-bounded parser for a given number of dictionary entries. -/
def parseDictN : Nat → Nat → List Tok → Option (JDict × List Tok)
  | _, 0, r => some (.dnil, r)
  | 0, _ + 1, _ => none
  | fuel + 1, n + 1, .tKey k :: r =>
    match parseTree fuel r with
    | some (v, r2) =>
      match parseDictN fuel n r2 with
      | some (d, r3) => some (.dcons k v d, r3)
      | none => none
    | none => none
  | _ + 1, _ + 1, _ => none
end

mutual
/-- Fuel measure sufficient for `parseTree` to parse a tree. -/
def szT : JTree → Nat
  | .prim _ => 1
  | .arr _ _ _ _ => 1
  | .func _ => 1
  | .list items => szL items + 1
  | .dict es => szD es + 1

/-- Fuel measure for parsing the elements of a list. -/
def szL : JList → Nat
  | .lnil => 0
  | .lcons h t => szT h + szL t + 1

/-- Fuel measure for parsing the entries of a dictionary. -/
def szD : JDict → Nat
  | .dnil => 0
  | .dcons _ v t => szT v + szD t + 1
end

mutual
/-- Whether a tree contains no device (JAX) array leaves. -/
def noDeviceT : JTree → Bool
  | .prim _ => true
  | .arr d _ _ _ => !d
  | .func _ => true
  | .list items => noDeviceL items
  | .dict es => noDeviceD es

/-- All elements of a list are free of device array leaves. -/
def noDeviceL : JList → Bool
  | .lnil => true
  | .lcons h t => noDeviceT h && noDeviceL t

/-- All values of a dictionary are free of device array leaves. -/
def noDeviceD : JDict → Bool
  | .dnil => true
  | .dcons _ v t => noDeviceT v && noDeviceD t
end

/-- Index keys `index j, index (j+1), ..., index (j+n-1)`. -/
def idxKeysFrom : Nat → Nat → List CKey
  | _, 0 => []
  | j, n + 1 => CKey.index j :: idxKeysFrom (j + 1) n

mutual
/-- Modelled from the spec and notebook: conversion of a tree to its stored
state-dict form.  Ordered containers become mappings with sequential
integer keys, dictionaries keep their keys but drop function-valued
(non-serializable) entries, device arrays become host arrays, and a
function leaf outside a dictionary entry is replaced by an empty
placeholder; nothing else changes. -/
def to_state_dict : JTree → JTree
  | .prim s => .prim s
  | .arr _ sh dt da => .arr false sh dt da
  | .func _ => .prim ""
  | .list items => .dict (indexDict 0 items)
  | .dict es => .dict (sdEntries es)

/-- State-dict form of the elements of a list: a dictionary keyed by the
sequential indices starting at `j`. -/
def indexDict : Nat → JList → JDict
  | _, .lnil => .dnil
  | j, .lcons h t => .dcons (CKey.index j) (to_state_dict h) (indexDict (j + 1) t)

/-- State-dict form of the entries of a dictionary: function-valued
entries are dropped, the rest keep their keys. -/
def sdEntries : JDict → JDict
  | .dnil => .dnil
  | .dcons k v t => if isFunc v then sdEntries t else .dcons k (to_state_dict v) (sdEntries t)
end

/-- Keys of the non-function-valued entries of a dictionary, in order. -/
def nonFuncKeys : JDict → List CKey
  | .dnil => []
  | .dcons k v t => if isFunc v then nonFuncKeys t else k :: nonFuncKeys t

/-- Modelled from the spec: payload of a SchemaMismatch error, naming the
specific missing or unexpected field and the path of the mapping node at
which the mismatch was found. -/
inductive MismatchInfo where
  | missingField (field : CKey) (path : List CKey)
  | unknownField (field : CKey) (path : List CKey)
  | nodeKind (path : List CKey)
deriving DecidableEq

/-- Modelled from the spec: the error kinds of the checkpoint layer. -/
inductive CkptErr where
  | NotFound
  | AlreadyExists (step : Nat)
  | SchemaMismatch (info : MismatchInfo)
  | Timeout
  | IOFailure
deriving DecidableEq

/-- First key of `ks` that is not present in the stored dictionary, if
any: the offending field for the missing-field direction. -/
def firstNotFound (ks : List CKey) (sE : JDict) : Option CKey :=
  match ks with
  | [] => none
  | k :: r => if (dlookupD k sE).isSome then firstNotFound r sE else some k

/-- First key of the stored dictionary that the template does not allow,
if any: the offending field for the unknown-field direction. -/
def firstUnknown (allowed : List CKey) : JDict → Option CKey
  | .dnil => none
  | .dcons k _ t => if keyIn k allowed then firstUnknown allowed t else some k

/-- Check that every required key is present in the stored dictionary,
failing with a SchemaMismatch naming the first missing field. -/
def checkMissing (ks : List CKey) (sE : JDict) (path : List CKey) : Except CkptErr Unit :=
  match firstNotFound ks sE with
  | none => .ok ()
  | some k => .error (.SchemaMismatch (.missingField k path))

/-- Check that every stored key is allowed by the template, failing with a
SchemaMismatch naming the first unknown field. -/
def checkUnknown (allowed : List CKey) (sE : JDict) (path : List CKey) : Except CkptErr Unit :=
  match firstUnknown allowed sE with
  | none => .ok ()
  | some k => .error (.SchemaMismatch (.unknownField k path))

mutual
/-- Modelled from the spec and notebook: template-driven reconstruction of
a tree from its stored state-dict form (the notebook's
`serialization.from_state_dict`, used by `restore_checkpoint` when a
`target` is given).  At a mapping node the template's required fields must
all be present and the stored tree may hold no field the template does not
mention, else the result is a SchemaMismatch naming the offending field
and its path; at an ordered container the stored integer-keyed entries are
rebuilt into a container following the template; at array and primitive
leaves the stored value is returned as-is (the template's leaf shapes do
not constrain it); function-valued template fields are taken from the
template itself, since they were never stored. -/
def from_state_dict (path : List CKey) : JTree → JTree → Except CkptErr JTree
  | .prim _, stored => .ok stored
  | .arr _ _ _ _, stored => .ok stored
  | .func f, _ => .ok (.func f)
  | .list ti, stored =>
    match stored with
    | .dict sE =>
      match checkMissing (idxKeysFrom 0 (llen ti)) sE path with
      | .error e => .error e
      | .ok _ =>
        match checkUnknown (idxKeysFrom 0 (llen ti)) sE path with
        | .error e => .error e
        | .ok _ =>
          match fromList path 0 ti sE with
          | .ok l => .ok (.list l)
          | .error e => .error e
    | _ => .error (.SchemaMismatch (.nodeKind path))
  | .dict tes, stored =>
    match stored with
    | .dict sE =>
      match checkMissing (nonFuncKeys tes) sE path with
      | .error e => .error e
      | .ok _ =>
        match checkUnknown (nonFuncKeys tes) sE path with
        | .error e => .error e
        | .ok _ =>
          match fromDict path tes sE with
          | .ok d => .ok (.dict d)
          | .error e => .error e
    | _ => .error (.SchemaMismatch (.nodeKind path))

/-- Rebuild the elements of a list template from the stored integer-keyed
dictionary, looking element `i` up under key `index i`. -/
def fromList (path : List CKey) : Nat → JList → JDict → Except CkptErr JList
  | _, .lnil, _ => .ok .lnil
  | i, .lcons th tt, sE =>
    match dlookupD (.index i) sE with
    | some sv =>
      match from_state_dict (path ++ [CKey.index i]) th sv with
      | .ok v =>
        match fromList path (i + 1) tt sE with
        | .ok l => .ok (.lcons v l)
        | .error e => .error e
      | .error e => .error e
    | none => .error (.SchemaMismatch (.missingField (.index i) path))

/-- Rebuild the entries of a dictionary template from the stored
dictionary: function-valued template entries come from the template, the
rest are looked up by key and reconstructed. -/
def fromDict (path : List CKey) : JDict → JDict → Except CkptErr JDict
  | .dnil, _ => .ok .dnil
  | .dcons k tv tt, sE =>
    if isFunc tv then
      match fromDict path tt sE with
      | .ok d => .ok (.dcons k tv d)
      | .error e => .error e
    else
      match dlookupD k sE with
      | some sv =>
        match from_state_dict (path ++ [k]) tv sv with
        | .ok v =>
          match fromDict path tt sE with
          | .ok d => .ok (.dcons k v d)
          | .error e => .error e
        | .error e => .error e
      | none => .error (.SchemaMismatch (.missingField k path))
end

/-- Modelled from the spec: `encode(tree) -> bytes` writes the token
stream of the tree's stored state-dict form. -/
def encode (t : JTree) : List Tok := encodeTree (to_state_dict t)

/-- Parse a complete token stream back into the stored tree. -/
def parseAll (bytes : List Tok) : Option JTree :=
  match parseTree (2 * bytes.length) bytes with
  | some (t, []) => some t
  | _ => none

/-- Modelled from the spec: `decode(bytes, template) -> tree`.  Without a
template the stored (generic) tree is returned as-is; with a template the
stored tree is reconstructed against it by `from_state_dict`. -/
def decode (bytes : List Tok) (template : Option JTree) : Except CkptErr JTree :=
  match parseAll bytes with
  | none => .error .IOFailure
  | some stored =>
    match template with
    | none => .ok stored
    | some tmpl => from_state_dict [] tmpl stored

/-- Uniqueness of a list of keys (the spec's invariant that keys are
unique within a StateTree level). -/
def keysUniq : List CKey → Bool
  | [] => true
  | k :: r => !keyIn k r && keysUniq r

mutual
/-- Well-formedness of a tree per the spec's data-model invariant: keys
are unique within each mapping level. -/
def wfT : JTree → Bool
  | .prim _ => true
  | .arr _ _ _ _ => true
  | .func _ => true
  | .list items => wfL items
  | .dict es => keysUniq (dkeys es) && wfD es

/-- All elements of a list are well-formed. -/
def wfL : JList → Bool
  | .lnil => true
  | .lcons h t => wfT h && wfL t

/-- All values of a dictionary are well-formed. -/
def wfD : JDict → Bool
  | .dnil => true
  | .dcons _ v t => wfT v && wfD t
end

mutual
/-- Structural compatibility of a template with a tree: mapping nodes have
the same keys in the same order with function-valued entries in the same
positions, ordered containers have the same length element-wise, and a
template leaf (array or primitive) is compatible with anything — leaf
shapes never constrain reconstruction. -/
def compatT : JTree → JTree → Bool
  | .prim _, _ => true
  | .arr _ _ _ _, _ => true
  | .func _, u => isFunc u
  | .list ti, .list items => compatL ti items
  | .list _, _ => false
  | .dict tes, .dict es => compatD tes es
  | .dict _, _ => false

/-- Element-wise compatibility of list templates. -/
def compatL : JList → JList → Bool
  | .lnil, .lnil => true
  | .lcons th tt, .lcons h t => compatT th h && compatL tt t
  | _, _ => false

/-- Entry-wise compatibility of dictionary templates: keys agree in order
and function-valued entries align. -/
def compatD : JDict → JDict → Bool
  | .dnil, .dnil => true
  | .dcons k tv tt, .dcons k2 v vt =>
    decide (k = k2) && (if isFunc tv then isFunc v else !isFunc v && compatT tv v) && compatD tt vt
  | _, _ => false
end

mutual
/-- Shape agreement of a template with a tree in the spec's sense: same
keys, same nesting and same array shapes (and element types), with no
function-valued fields anywhere. -/
def shapeMatchT : JTree → JTree → Bool
  | .prim _, .prim _ => true
  | .arr _ sh dt _, .arr _ sh2 dt2 _ => decide (sh = sh2) && decide (dt = dt2)
  | .list ti, .list items => shapeMatchL ti items
  | .dict tes, .dict es => shapeMatchD tes es
  | _, _ => false

/-- Element-wise shape agreement of lists. -/
def shapeMatchL : JList → JList → Bool
  | .lnil, .lnil => true
  | .lcons th tt, .lcons h t => shapeMatchT th h && shapeMatchL tt t
  | _, _ => false

/-- Entry-wise shape agreement of dictionaries. -/
def shapeMatchD : JDict → JDict → Bool
  | .dnil, .dnil => true
  | .dcons k tv tt, .dcons k2 v vt => decide (k = k2) && shapeMatchT tv v && shapeMatchD tt vt
  | _, _ => false
end

mutual
/-- Shape agreement extended to trees with non-serializable fields:
as `shapeMatchT`, but function-valued leaves may face function-valued
leaves with any names (the notebook's `empty_state` template relates to
the saved TrainState this way). -/
def richMatchT : JTree → JTree → Bool
  | .prim _, .prim _ => true
  | .arr _ sh dt _, .arr _ sh2 dt2 _ => decide (sh = sh2) && decide (dt = dt2)
  | .func _, .func _ => true
  | .list ti, .list items => richMatchL ti items
  | .dict tes, .dict es => richMatchD tes es
  | _, _ => false

/-- Element-wise rich shape agreement of lists. -/
def richMatchL : JList → JList → Bool
  | .lnil, .lnil => true
  | .lcons th tt, .lcons h t => richMatchT th h && richMatchL tt t
  | _, _ => false

/-- Entry-wise rich shape agreement of dictionaries. -/
def richMatchD : JDict → JDict → Bool
  | .dnil, .dnil => true
  | .dcons k tv tt, .dcons k2 v vt => decide (k = k2) && richMatchT tv v && richMatchD tt vt
  | _, _ => false
end

mutual
/-- The tree produced by reconstructing the stored form of `u` against a
compatible template: stored values at template leaves (as host arrays),
the template's own value at function-valued template fields, and the
containers of `u` rebuilt element-wise. -/
def restoredT : JTree → JTree → JTree
  | .prim _, u => to_state_dict u
  | .arr _ _ _ _, u => to_state_dict u
  | .func f, _ => .func f
  | .list ti, .list items => .list (restoredL ti items)
  | .list _, u => to_state_dict u
  | .dict tes, .dict es => .dict (restoredD tes es)
  | .dict _, u => to_state_dict u

/-- Element-wise reconstruction of a list. -/
def restoredL : JList → JList → JList
  | .lnil, _ => .lnil
  | .lcons _ _, .lnil => .lnil
  | .lcons th tt, .lcons h t => .lcons (restoredT th h) (restoredL tt t)

/-- Entry-wise reconstruction of a dictionary: function-valued template
entries keep the template's value. -/
def restoredD : JDict → JDict → JDict
  | .dnil, _ => .dnil
  | .dcons _ _ _, .dnil => .dnil
  | .dcons k tv tt, .dcons _ v vt =>
    .dcons k (if isFunc tv then tv else restoredT tv v) (restoredD tt vt)
end

mutual
/-- Names of the function-valued (non-serializable) leaves of a tree, in
order. -/
def funcNamesT : JTree → List String
  | .prim _ => []
  | .arr _ _ _ _ => []
  | .func f => [f]
  | .list items => funcNamesL items
  | .dict es => funcNamesD es

/-- Names of the function-valued leaves of the elements of a list. -/
def funcNamesL : JList → List String
  | .lnil => []
  | .lcons h t => funcNamesT h ++ funcNamesL t

/-- Names of the function-valued leaves of the values of a dictionary. -/
def funcNamesD : JDict → List String
  | .dnil => []
  | .dcons _ v t => funcNamesT v ++ funcNamesD t
end

/-- Little-endian decimal digits of `n`, computed with explicit fuel. -/
def digitsRev : Nat → Nat → List Nat
  | 0, _ => []
  | _ + 1, 0 => []
  | f + 1, n + 1 => ((n + 1) % 10) :: digitsRev f ((n + 1) / 10)

/-- Character codes of the unpadded decimal representation of `n`, most
significant digit first (code 48 is the digit 0). -/
def natCodes (n : Nat) : List Nat :=
  if n = 0 then [48] else (digitsRev n n).reverse.map (fun d => d + 48)

/-- Character codes of the fixed name part before the step number. -/
def ckptPrefixCodes : List Nat := "checkpoint_".data.map (fun c => c.toNat)

/-- The storage name generated for a step, as its sequence of character
codes.  The notebook's `save_checkpoint_multiprocess` call returns
`tmp/flax-checkpointing/checkpoint_3`, pinning the mapping to the fixed
part followed by the unpadded decimal step number. -/
def stepName (step : Nat) : List Nat := ckptPrefixCodes ++ natCodes step

/-- Strict lexicographic comparison of code sequences. -/
def lexLtB : List Nat → List Nat → Bool
  | [], [] => false
  | [], _ :: _ => true
  | _ :: _, [] => false
  | a :: as, b :: bs => if a < b then true else if a = b then lexLtB as bs else false

/-- Modelled from the spec: a retention policy, applied after each
successful save: a bound on the number of retained checkpoints (none
means unbounded) and whether overwriting existing steps is allowed. -/
structure RetentionPolicy where
  max_keep : Option Nat
  overwrite_allowed : Bool

/-- Modelled from the spec: a checkpoint entry: step, storage location
(the generated name) and the stored bytes. -/
structure CheckpointEntry where
  step : Nat
  path : List Nat
  bytes : List Tok

/-- Modelled from the spec: the store, holding its entries ordered by
step (ascending, unique steps). -/
structure Store where
  entries : List CheckpointEntry

/-- Modelled from the spec: `list_steps() -> ordered sequence of
integers`. -/
def list_steps (s : Store) : List Nat := s.entries.map (fun e => e.step)

/-- Whether the store already holds an entry at a step greater than or
equal to the given step. -/
def existsGE (s : Store) (step : Nat) : Bool :=
  s.entries.any (fun e => decide (step ≤ e.step))

/-- Insert an entry into a step-ordered entry list, replacing an entry
with the same step. -/
def insertEntry (e : CheckpointEntry) : List CheckpointEntry → List CheckpointEntry
  | [] => [e]
  | x :: rest =>
    if e.step < x.step then e :: x :: rest
    else if e.step = x.step then e :: rest
    else x :: insertEntry e rest

/-- Modelled from the spec: `write(step, bytes)`.  Fails with
AlreadyExists if overwriting is disallowed and an entry for this step or
any newer step already exists; otherwise records the entry under its
generated storage name. -/
def write (ow : Bool) (s : Store) (step : Nat) (bytes : List Tok) : Except CkptErr Store :=
  if !ow && existsGE s step then .error (.AlreadyExists step)
  else .ok ⟨insertEntry ⟨step, stepName step, bytes⟩ s.entries⟩

/-- Modelled from the spec: pruning per the retention policy: when the
entry count exceeds the bound, the oldest (lowest-step) entries are
deleted first, keeping the newest ones. -/
def prune (max_keep : Option Nat) (s : Store) : Store :=
  match max_keep with
  | none => s
  | some n => ⟨s.entries.drop (s.entries.length - n)⟩

/-- Modelled from the spec and notebook: `save_checkpoint`: encode the
tree, write it at the step (subject to the overwrite guard), then apply
retention pruning.  A failed write leaves the store unchanged. -/
def save_checkpoint (pol : RetentionPolicy) (s : Store) (step : Nat) (t : JTree) :
    Store × Except CkptErr Unit :=
  match write pol.overwrite_allowed s step (encode t) with
  | .error e => (s, .error e)
  | .ok s2 => (prune pol.max_keep s2, .ok ())

/-- Entry stored at a given step, if any. -/
def findEntry (stp : Nat) : List CheckpointEntry → Option CheckpointEntry
  | [] => none
  | e :: r => if e.step = stp then some e else findEntry stp r

/-- Last entry of the entry list (the highest step, given the ordering
invariant), if any. -/
def lastEntry : List CheckpointEntry → Option CheckpointEntry
  | [] => none
  | [e] => some e
  | _ :: e2 :: r => lastEntry (e2 :: r)

/-- Modelled from the spec and notebook: `restore_checkpoint`: read the
requested entry (the latest one when no step is given), fail with
NotFound when there is none, and decode with the given template. -/
def restore_checkpoint (s : Store) (step : Option Nat) (template : Option JTree) :
    Except CkptErr JTree :=
  match step with
  | some q =>
    match findEntry q s.entries with
    | some e => decode e.bytes template
    | none => .error .NotFound
  | none =>
    match lastEntry s.entries with
    | some e => decode e.bytes template
    | none => .error .NotFound

/-- Modelled from the spec: a Manager in asynchronous mode: the store and
the FIFO queue of submitted, not yet performed saves. -/
structure Manager where
  store : Store
  pending : List (Nat × JTree)

/-- An event of an asynchronous schedule: the caller submits a save, or
the single background worker performs the oldest queued save. -/
inductive AsyncEv where
  | submit (step : Nat) (t : JTree)
  | work

/-- Perform a list of saves sequentially. -/
def saveAll (pol : RetentionPolicy) : Store → List (Nat × JTree) → Store
  | s, [] => s
  | s, (stp, t) :: rest => saveAll pol (save_checkpoint pol s stp t).1 rest

/-- Perform a list of saves sequentially, collecting each save's result. -/
def saveAllResults (pol : RetentionPolicy) :
    Store → List (Nat × JTree) → Store × List (Except CkptErr Unit)
  | s, [] => (s, [])
  | s, (stp, t) :: rest =>
    let r := save_checkpoint pol s stp t
    let rec2 := saveAllResults pol r.1 rest
    (rec2.1, r.2 :: rec2.2)

/-- One step of the asynchronous machine: a submission appends to the
queue; a worker step performs the save at the head of the queue (at most
one save is ever in flight, and saves are taken in submission order). -/
def applyEv (pol : RetentionPolicy) (m : Manager) : AsyncEv → Manager
  | .submit stp t => ⟨m.store, m.pending ++ [(stp, t)]⟩
  | .work =>
    match m.pending with
    | [] => m
    | p :: rest => ⟨(save_checkpoint pol m.store p.1 p.2).1, rest⟩

/-- Run an asynchronous schedule (an arbitrary interleaving of
submissions and worker steps). -/
def execSched (pol : RetentionPolicy) (m : Manager) (evs : List AsyncEv) : Manager :=
  evs.foldl (applyEv pol) m

/-- The saves submitted by a schedule, in submission order. -/
def subsOf (evs : List AsyncEv) : List (Nat × JTree) :=
  evs.filterMap (fun e => match e with | .submit stp t => some (stp, t) | .work => none)

/-- Modelled from the spec: `wait_until_finished()`: block until every
previously submitted save has completed, leaving an empty queue. -/
def wait_until_finished (pol : RetentionPolicy) (m : Manager) : Manager :=
  ⟨saveAll pol m.store m.pending, []⟩

/-- Insert into an ascending list of steps. -/
def insertAsc (x : Nat) : List Nat → List Nat
  | [] => [x]
  | y :: r => if x ≤ y then x :: y :: r else y :: insertAsc x r

/-- Ascending insertion sort. -/
def sortAsc (l : List Nat) : List Nat := l.foldl (fun acc x => insertAsc x acc) []

/-- The last `n` elements of a list (for an ascending list of steps, the
`n` highest). -/
def keepLast (n : Nat) (l : List Nat) : List Nat := l.drop (l.length - n)

/-- Value of a little-endian digit list. -/
def ofDigitsLE : List Nat → Nat
  | [] => 0
  | d :: r => d + 10 * ofDigitsLE r

/-- Value of a big-endian digit list. -/
def valBE : List Nat → Nat
  | [] => 0
  | d :: r => d * 10 ^ r.length + valBE r

/-- Concrete checkpoint tree for exercising the round trip: a model with
parameters and a step counter, plus an ordered data container. -/
def c1Tree : JTree :=
  .dict (.dcons (.name "model")
    (.dict (.dcons (.name "params") (.arr false [2] "float32" [1, 2])
      (.dcons (.name "step") (.prim "1") .dnil)))
    (.dcons (.name "data")
      (.list (.lcons (.arr false [5] "float32" [3, 4, 5, 6, 7]) .lnil)) .dnil))

/-- Concrete store holding one entry at step 5. -/
def c2Store : Store := ⟨[⟨5, stepName 5, encode (.prim "old")⟩]⟩

/-- Concrete save sequence at steps 1, 2, 3. -/
def c3Saves : List (Nat × JTree) := [(1, .prim "a"), (2, .prim "b"), (3, .prim "c")]

/-- Concrete template mapping requiring the field batch_stats. -/
def c4Tmpl : JDict :=
  .dcons (.name "batch_stats") (.arr false [10] "int32" [0, 1, 2, 3, 4, 5, 6, 7, 8, 9]) .dnil

/-- Concrete store with entries at steps 1 and 4, ordered by step. -/
def c6Store : Store :=
  ⟨[⟨1, stepName 1, encode (.prim "a")⟩, ⟨4, stepName 4, encode (.prim "b")⟩]⟩

/-- Concrete TrainState-like tree with function-valued fields and a device
array, as saved by the notebook. -/
def c9Tree : JTree :=
  .dict (.dcons (.name "model")
    (.dict (.dcons (.name "apply_fn") (.func "Module.apply")
      (.dcons (.name "params") (.arr true [2] "float32" [1, 2])
        (.dcons (.name "tx") (.func "sgd")
          (.dcons (.name "step") (.prim "1") .dnil))))) .dnil)

/-- Concrete restore template for `c9Tree` with its own function values
and zeroed leaves (the notebook's `empty_state`). -/
def c9Tmpl : JTree :=
  .dict (.dcons (.name "model")
    (.dict (.dcons (.name "apply_fn") (.func "tmpl_apply")
      (.dcons (.name "params") (.arr false [2] "float32" [0, 0])
        (.dcons (.name "tx") (.func "tmpl_tx")
          (.dcons (.name "step") (.prim "0") .dnil))))) .dnil)

/-- Concrete stored tree holding an 8-by-2 array. -/
def c10Tree : JTree :=
  .dict (.dcons (.name "model")
    (.arr false [8, 2] "int32" [0, 1, 2, 3, 4, 5, 6, 7, 8, 9, 10, 11, 12, 13, 14, 15])
    .dnil)

/-- Concrete restore template whose array leaf is only 4-by-2 (the
notebook's smaller `mp_target`). -/
def c10Tmpl : JTree :=
  .dict (.dcons (.name "model") (.arr false [4, 2] "int32" [0, 0, 0, 0, 0, 0, 0, 0]) .dnil)

mutual
theorem parse_encodeTree (t : JTree) :
    ∀ fuel r, szT t ≤ fuel → noDeviceT t = true →
      parseTree fuel (encodeTree t ++ r) = some (t, r) := by
  match t with
  | .prim s =>
    intro fuel r h _
    match fuel, h with
    | fuel + 1, _ => simp [encodeTree, parseTree]
  | .arr d sh dt da =>
    intro fuel r h hd
    match fuel, h with
    | fuel + 1, _ =>
      simp only [noDeviceT, Bool.not_eq_true'] at hd
      simp [encodeTree, parseTree, hd]
  | .func f =>
    intro fuel r h _
    match fuel, h with
    | fuel + 1, _ => simp [encodeTree, parseTree]
  | .list items =>
    intro fuel r h hd
    match fuel, h with
    | fuel + 1, h =>
      have h2 : szL items ≤ fuel := by
        have := Nat.succ_le_succ_iff.mp (by simpa [szT] using h)
        exact this
      simp only [noDeviceT] at hd
      simp [encodeTree, parseTree, parse_encodeList items fuel r h2 hd]
  | .dict es =>
    intro fuel r h hd
    match fuel, h with
    | fuel + 1, h =>
      have h2 : szD es ≤ fuel := by
        have := Nat.succ_le_succ_iff.mp (by simpa [szT] using h)
        exact this
      simp only [noDeviceT] at hd
      simp [encodeTree, parseTree, parse_encodeDict es fuel r h2 hd]

theorem parse_encodeList (l : JList) :
    ∀ fuel r, szL l ≤ fuel → noDeviceL l = true →
      parseListN fuel (llen l) (encodeList l ++ r) = some (l, r) := by
  match l with
  | .lnil => intro fuel r _ _; simp [encodeList, llen, parseListN]
  | .lcons h t =>
    intro fuel r hf hd
    simp only [noDeviceL, Bool.and_eq_true] at hd
    match fuel, hf with
    | fuel + 1, hf =>
      have hszh : szT h ≤ fuel := by
        simp only [szL] at hf; omega
      have hszt : szL t ≤ fuel := by
        simp only [szL] at hf; omega
      have e1 := parse_encodeTree h fuel (encodeList t ++ r) hszh hd.1
      have e2 := parse_encodeList t fuel r hszt hd.2
      simp [encodeList, llen, parseListN, List.append_assoc, e1, e2]

theorem parse_encodeDict (d : JDict) :
    ∀ fuel r, szD d ≤ fuel → noDeviceD d = true →
      parseDictN fuel (dlen d) (encodeDict d ++ r) = some (d, r) := by
  match d with
  | .dnil => intro fuel r _ _; simp [encodeDict, dlen, parseDictN]
  | .dcons k v t =>
    intro fuel r hf hd
    simp only [noDeviceD, Bool.and_eq_true] at hd
    match fuel, hf with
    | fuel + 1, hf =>
      have hszv : szT v ≤ fuel := by
        simp only [szD] at hf; omega
      have hszt : szD t ≤ fuel := by
        simp only [szD] at hf; omega
      have e1 := parse_encodeTree v fuel (encodeDict t ++ r) hszv hd.1
      have e2 := parse_encodeDict t fuel r hszt hd.2
      simp [encodeDict, dlen, parseDictN, List.append_assoc, e1, e2]
end

theorem dlookupD_eq_none (k : CKey) (d : JDict) :
    keyIn k (dkeys d) = false → dlookupD k d = none := by
  match d with
  | .dnil => intro _; rfl
  | .dcons k2 v t =>
    intro h
    simp only [dkeys, keyIn] at h
    by_cases hk : k = k2
    · simp [hk] at h
    · simp only [hk, if_false] at h
      simp [dlookupD, hk, dlookupD_eq_none k t h]

theorem keyIn_of_lookup (k : CKey) (d : JDict) (v : JTree) (h : dlookupD k d = some v) :
    keyIn k (dkeys d) = true := by
  by_cases hm : keyIn k (dkeys d) = true
  · exact hm
  · rw [dlookupD_eq_none k d (by simpa using hm)] at h
    exact absurd h (by simp)

theorem dkeys_sdEntries (es : JDict) : dkeys (sdEntries es) = nonFuncKeys es := by
  match es with
  | .dnil => rfl
  | .dcons k v t =>
    by_cases hf : isFunc v
    · simp [sdEntries, nonFuncKeys, hf, dkeys_sdEntries t]
    · simp [sdEntries, nonFuncKeys, hf, dkeys, dkeys_sdEntries t]

theorem keyIn_nonFuncKeys_sub (k : CKey) (d : JDict) :
    keyIn k (nonFuncKeys d) = true → keyIn k (dkeys d) = true := by
  match d with
  | .dnil => intro h; simp [nonFuncKeys, keyIn] at h
  | .dcons k2 v t =>
    intro h
    by_cases hk : k = k2
    · simp [dkeys, keyIn, hk]
    · simp only [dkeys, keyIn, hk, if_false]
      by_cases hf : isFunc v
      · simp only [nonFuncKeys, hf, if_true] at h
        exact keyIn_nonFuncKeys_sub k t h
      · simp only [nonFuncKeys, hf, if_false, keyIn, hk] at h
        exact keyIn_nonFuncKeys_sub k t h

theorem lookup_sdEntries (k : CKey) (es : JDict) :
    keysUniq (dkeys es) = true →
    dlookupD k (sdEntries es) =
      (dlookupD k es).bind (fun v => if isFunc v then none else some (to_state_dict v)) := by
  match es with
  | .dnil => intro _; rfl
  | .dcons k2 v t =>
    intro hu
    simp only [dkeys, keysUniq, Bool.and_eq_true, Bool.not_eq_true'] at hu
    by_cases hk : k = k2
    · subst hk
      by_cases hf : isFunc v
      · have hnone : dlookupD k (sdEntries t) = none := by
          apply dlookupD_eq_none
          rw [dkeys_sdEntries]
          by_cases hx : keyIn k (nonFuncKeys t) = true
          · exact absurd (keyIn_nonFuncKeys_sub k t hx) (by simp [hu.1])
          · simpa using hx
        simp [sdEntries, hf, dlookupD, hnone]
      · simp [sdEntries, hf, dlookupD]
    · by_cases hf : isFunc v
      · simp [sdEntries, hf, dlookupD, hk, lookup_sdEntries k t hu.2]
      · simp [sdEntries, hf, dlookupD, hk, lookup_sdEntries k t hu.2]

theorem lookup_nonFunc (k : CKey) (es : JDict) :
    keysUniq (dkeys es) = true → keyIn k (nonFuncKeys es) = true →
    ∃ v, dlookupD k es = some v ∧ isFunc v = false := by
  match es with
  | .dnil => intro _ h; simp [nonFuncKeys, keyIn] at h
  | .dcons k2 v t =>
    intro hu h
    simp only [dkeys, keysUniq, Bool.and_eq_true, Bool.not_eq_true'] at hu
    by_cases hk : k = k2
    · subst hk
      by_cases hf : isFunc v
      · simp only [nonFuncKeys, hf, if_true] at h
        exact absurd (keyIn_nonFuncKeys_sub k t h) (by simp [hu.1])
      · exact ⟨v, by simp [dlookupD], by simpa using hf⟩
    · by_cases hf : isFunc v
      · simp only [nonFuncKeys, hf, if_true] at h
        obtain ⟨w, hw⟩ := lookup_nonFunc k t hu.2 h
        exact ⟨w, by simpa [dlookupD, hk] using hw.1, hw.2⟩
      · simp only [nonFuncKeys, hf, if_false, keyIn, hk] at h
        obtain ⟨w, hw⟩ := lookup_nonFunc k t hu.2 h
        exact ⟨w, by simpa [dlookupD, hk] using hw.1, hw.2⟩

theorem compat_nonFuncKeys (tes : JDict) : ∀ es : JDict, compatD tes es = true →
    nonFuncKeys tes = nonFuncKeys es := by
  match tes with
  | .dnil =>
    intro es h
    cases es with
    | dnil => rfl
    | dcons k v t => simp [compatD] at h
  | .dcons k tv tt =>
    intro es h
    cases es with
    | dnil => simp [compatD] at h
    | dcons k2 v vt =>
      simp only [compatD, Bool.and_eq_true, decide_eq_true_eq] at h
      obtain ⟨⟨hk, hfv⟩, hrest⟩ := h
      by_cases hf : isFunc tv
      · simp only [hf, if_true] at hfv
        simp [nonFuncKeys, hf, hfv, compat_nonFuncKeys tt vt hrest]
      · simp only [hf] at hfv
        simp only [Bool.false_eq_true, if_false, Bool.and_eq_true, Bool.not_eq_true'] at hfv
        simp [nonFuncKeys, hf, hfv.1, hk, compat_nonFuncKeys tt vt hrest]

theorem dkeys_indexDict (items : JList) : ∀ j,
    dkeys (indexDict j items) = idxKeysFrom j (llen items) := by
  match items with
  | .lnil => intro j; rfl
  | .lcons h t => intro j; simp [indexDict, dkeys, llen, idxKeysFrom, dkeys_indexDict t (j + 1)]

theorem lookup_indexDict (items : JList) : ∀ j m,
    dlookupD (.index (j + m)) (indexDict j items) = (nthL items m).map to_state_dict := by
  match items with
  | .lnil => intro j m; rfl
  | .lcons h t =>
    intro j m
    cases m with
    | zero => simp [indexDict, dlookupD, nthL]
    | succ m =>
      have hne : CKey.index (j + (m + 1)) ≠ CKey.index j := by
        intro hx
        have : j + (m + 1) = j := by injection hx
        omega
      have hsum : j + (m + 1) = (j + 1) + m := by omega
      rw [indexDict, dlookupD, if_neg hne, hsum, lookup_indexDict t (j + 1) m]
      rfl

theorem keyIn_idxKeysFrom (k : CKey) : ∀ j n, keyIn k (idxKeysFrom j n) = true →
    ∃ m, k = CKey.index m ∧ j ≤ m ∧ m < j + n := by
  intro j n
  induction n generalizing j with
  | zero => intro h; simp [idxKeysFrom, keyIn] at h
  | succ n ih =>
    intro h
    simp only [idxKeysFrom, keyIn] at h
    by_cases hk : k = CKey.index j
    · exact ⟨j, hk, Nat.le_refl j, by omega⟩
    · simp only [hk, if_false] at h
      obtain ⟨m, hm⟩ := ih (j + 1) h
      exact ⟨m, hm.1, by omega, by omega⟩

theorem nthL_lt (items : JList) : ∀ m, m < llen items → ∃ h, nthL items m = some h := by
  match items with
  | .lnil => intro m hm; simp [llen] at hm
  | .lcons h t =>
    intro m hm
    cases m with
    | zero => exact ⟨h, rfl⟩
    | succ m =>
      exact nthL_lt t m (by simp only [llen] at hm; omega)

theorem compatL_llen (ti : JList) : ∀ items : JList, compatL ti items = true →
    llen ti = llen items := by
  match ti with
  | .lnil =>
    intro items h
    cases items with
    | lnil => rfl
    | lcons _ _ => simp [compatL] at h
  | .lcons th tt =>
    intro items h
    cases items with
    | lnil => simp [compatL] at h
    | lcons h2 t2 =>
      simp only [compatL, Bool.and_eq_true] at h
      simp [llen, compatL_llen tt t2 h.2]

theorem firstNotFound_none (ks : List CKey) (sE : JDict)
    (h : ∀ k, keyIn k ks = true → (dlookupD k sE).isSome = true) :
    firstNotFound ks sE = none := by
  induction ks with
  | nil => rfl
  | cons k r ih =>
    have hk : (dlookupD k sE).isSome = true := h k (by simp [keyIn])
    rw [firstNotFound, if_pos hk]
    exact ih (fun k2 hk2 => by
      by_cases he : k2 = k
      · exact he ▸ hk
      · exact h k2 (by simp [keyIn, he, hk2]))

theorem firstUnknown_none (allowed : List CKey) (sE : JDict) :
    (∀ k, keyIn k (dkeys sE) = true → keyIn k allowed = true) →
    firstUnknown allowed sE = none := by
  match sE with
  | .dnil => intro _; rfl
  | .dcons k v t =>
    intro h
    have hk : keyIn k allowed = true := h k (by simp [dkeys, keyIn])
    rw [firstUnknown, if_pos hk]
    exact firstUnknown_none allowed t (fun k2 hk2 => by
      by_cases he : k2 = k
      · exact he ▸ hk
      · exact h k2 (by simp [dkeys, keyIn, he, hk2]))

mutual
theorem master_T (tmpl : JTree) : ∀ (u : JTree) (path : List CKey),
    compatT tmpl u = true → wfT u = true →
    from_state_dict path tmpl (to_state_dict u) = .ok (restoredT tmpl u) := by
  match tmpl with
  | .prim s => intro u path _ _; simp [from_state_dict, restoredT]
  | .arr d sh dt da => intro u path _ _; simp [from_state_dict, restoredT]
  | .func f => intro u path _ _; simp [from_state_dict, restoredT]
  | .list ti =>
    intro u path hc hw
    cases u with
    | prim s => simp [compatT] at hc
    | arr d sh dt da => simp [compatT] at hc
    | func f => simp [compatT, isFunc] at hc
    | dict es => simp [compatT] at hc
    | list items =>
      simp only [compatT] at hc
      simp only [wfT] at hw
      have hlen := compatL_llen ti items hc
      have hmiss : firstNotFound (idxKeysFrom 0 (llen ti)) (indexDict 0 items) = none := by
        apply firstNotFound_none
        intro k hk
        obtain ⟨m, hkm, _, hmn⟩ := keyIn_idxKeysFrom k 0 (llen ti) hk
        subst hkm
        obtain ⟨h0, hh⟩ := nthL_lt items m (by omega)
        rw [show m = 0 + m from by omega, lookup_indexDict items 0 m, hh]
        rfl
      have hunk : firstUnknown (idxKeysFrom 0 (llen ti)) (indexDict 0 items) = none := by
        apply firstUnknown_none
        intro k hk
        rw [dkeys_indexDict items 0] at hk
        rw [hlen]
        exact hk
      have hfl : fromList path 0 ti (indexDict 0 items) = .ok (restoredL ti items) := by
        apply master_L ti items 0 (indexDict 0 items) path hc hw
        intro m
        exact lookup_indexDict items 0 m
      simp [to_state_dict, from_state_dict, checkMissing, hmiss, checkUnknown, hunk, hfl,
        restoredT]
  | .dict tes =>
    intro u path hc hw
    cases u with
    | prim s => simp [compatT] at hc
    | arr d sh dt da => simp [compatT] at hc
    | func f => simp [compatT, isFunc] at hc
    | list items => simp [compatT] at hc
    | dict es =>
      simp only [compatT] at hc
      simp only [wfT, Bool.and_eq_true] at hw
      obtain ⟨hu, hwd⟩ := hw
      have hkeys := compat_nonFuncKeys tes es hc
      have hmiss : firstNotFound (nonFuncKeys tes) (sdEntries es) = none := by
        apply firstNotFound_none
        intro k hk
        rw [hkeys] at hk
        obtain ⟨v, hv, hnf⟩ := lookup_nonFunc k es hu hk
        rw [lookup_sdEntries k es hu, hv]
        simp [hnf]
      have hunk : firstUnknown (nonFuncKeys tes) (sdEntries es) = none := by
        apply firstUnknown_none
        intro k hk
        rw [dkeys_sdEntries] at hk
        rw [hkeys]
        exact hk
      have hfd : fromDict path tes (sdEntries es) = .ok (restoredD tes es) := by
        apply master_D tes es (sdEntries es) path hc hwd hu
        intro k v hv hnf
        rw [lookup_sdEntries k es hu, hv]
        simp [hnf]
      simp [to_state_dict, from_state_dict, checkMissing, hmiss, checkUnknown, hunk, hfd,
        restoredT]

theorem master_L (ti : JList) : ∀ (items : JList) (i : Nat) (sE : JDict) (path : List CKey),
    compatL ti items = true → wfL items = true →
    (∀ m, dlookupD (.index (i + m)) sE = (nthL items m).map to_state_dict) →
    fromList path i ti sE = .ok (restoredL ti items) := by
  match ti with
  | .lnil =>
    intro items i sE path hc _ _
    cases items with
    | lnil => simp [fromList, restoredL]
    | lcons h t => simp [compatL] at hc
  | .lcons th tt =>
    intro items i sE path hc hw H
    cases items with
    | lnil => simp [compatL] at hc
    | lcons h t =>
      simp only [compatL, Bool.and_eq_true] at hc
      simp only [wfL, Bool.and_eq_true] at hw
      have h0 := H 0
      simp only [Nat.add_zero, nthL, Option.map_some'] at h0
      have hrec := master_T th h (path ++ [CKey.index i]) hc.1 hw.1
      have htail : fromList path (i + 1) tt sE = .ok (restoredL tt t) := by
        apply master_L tt t (i + 1) sE path hc.2 hw.2
        intro m
        have hm := H (m + 1)
        rw [show i + (m + 1) = (i + 1) + m from by omega] at hm
        simpa [nthL] using hm
      simp [fromList, h0, hrec, htail, restoredL]

theorem master_D (tes : JDict) : ∀ (es sE : JDict) (path : List CKey),
    compatD tes es = true → wfD es = true → keysUniq (dkeys es) = true →
    (∀ k v, dlookupD k es = some v → isFunc v = false →
      dlookupD k sE = some (to_state_dict v)) →
    fromDict path tes sE = .ok (restoredD tes es) := by
  match tes with
  | .dnil =>
    intro es sE path hc _ _ _
    cases es with
    | dnil => simp [fromDict, restoredD]
    | dcons k v t => simp [compatD] at hc
  | .dcons k tv tt =>
    intro es sE path hc hw hu H
    cases es with
    | dnil => simp [compatD] at hc
    | dcons k2 v vt =>
      simp only [compatD, Bool.and_eq_true, decide_eq_true_eq] at hc
      obtain ⟨⟨hk, hfv⟩, hrest⟩ := hc
      subst hk
      simp only [wfD, Bool.and_eq_true] at hw
      simp only [dkeys, keysUniq, Bool.and_eq_true, Bool.not_eq_true'] at hu
      have Htail : ∀ k3 v3, dlookupD k3 vt = some v3 → isFunc v3 = false →
          dlookupD k3 sE = some (to_state_dict v3) := by
        intro k3 v3 h3 hnf3
        by_cases he : k3 = k
        · subst he
          rw [dlookupD_eq_none k3 vt hu.1] at h3
          exact absurd h3 (by simp)
        · apply H k3 v3 ?_ hnf3
          rw [dlookupD, if_neg he]
          exact h3
      have htail := master_D tt vt sE path hrest hw.2 hu.2 Htail
      by_cases hf : isFunc tv
      · simp only [hf, if_true] at hfv
        simp [fromDict, hf, htail, restoredD]
      · simp only [hf] at hfv
        simp only [Bool.false_eq_true, if_false, Bool.and_eq_true, Bool.not_eq_true'] at hfv
        have hlook : dlookupD k sE = some (to_state_dict v) := by
          apply H k v ?_ hfv.1
          rw [dlookupD, if_pos rfl]
        have hrec := master_T tv v (path ++ [k]) hfv.2 hw.1
        simp [fromDict, hf, hlook, hrec, htail, restoredD]
end

mutual
theorem szT_le_encodeTree (t : JTree) : szT t + 1 ≤ 2 * (encodeTree t).length := by
  match t with
  | .prim s => simp [szT, encodeTree]
  | .arr d sh dt da => simp [szT, encodeTree]
  | .func f => simp [szT, encodeTree]
  | .list items =>
    have h := szL_le_encodeList items
    simp only [szT, encodeTree, List.length_cons]
    omega
  | .dict es =>
    have h := szD_le_encodeDict es
    simp only [szT, encodeTree, List.length_cons]
    omega

theorem szL_le_encodeList (l : JList) : szL l ≤ 2 * (encodeList l).length := by
  match l with
  | .lnil => simp [szL, encodeList]
  | .lcons h t =>
    have h1 := szT_le_encodeTree h
    have h2 := szL_le_encodeList t
    simp only [szL, encodeList, List.length_append]
    omega

theorem szD_le_encodeDict (d : JDict) : szD d ≤ 2 * (encodeDict d).length := by
  match d with
  | .dnil => simp [szD, encodeDict]
  | .dcons k v t =>
    have h1 := szT_le_encodeTree v
    have h2 := szD_le_encodeDict t
    simp only [szD, encodeDict, List.length_cons, List.length_append]
    omega
end

theorem parseAll_encodeTree (u : JTree) (hd : noDeviceT u = true) :
    parseAll (encodeTree u) = some u := by
  have hfuel : szT u ≤ 2 * (encodeTree u).length := by
    have := szT_le_encodeTree u
    omega
  have h := parse_encodeTree u (2 * (encodeTree u).length) [] hfuel hd
  rw [List.append_nil] at h
  simp [parseAll, h]

mutual
theorem noDevice_to_state_dict (t : JTree) : noDeviceT (to_state_dict t) = true := by
  match t with
  | .prim s => rfl
  | .arr d sh dt da => simp [to_state_dict, noDeviceT]
  | .func f => simp [to_state_dict, noDeviceT]
  | .list items => simp [to_state_dict, noDeviceT, noDevice_indexDict items 0]
  | .dict es => simp [to_state_dict, noDeviceT, noDevice_sdEntries es]

theorem noDevice_indexDict (items : JList) : ∀ j, noDeviceD (indexDict j items) = true := by
  match items with
  | .lnil => intro j; rfl
  | .lcons h t =>
    intro j
    simp [indexDict, noDeviceD, noDevice_to_state_dict h, noDevice_indexDict t (j + 1)]

theorem noDevice_sdEntries (es : JDict) : noDeviceD (sdEntries es) = true := by
  match es with
  | .dnil => rfl
  | .dcons k v t =>
    by_cases hf : isFunc v
    · simp [sdEntries, hf, noDevice_sdEntries t]
    · simp [sdEntries, hf, noDeviceD, noDevice_to_state_dict v, noDevice_sdEntries t]
end

theorem decode_encode_no_template (t : JTree) :
    decode (encode t) none = .ok (to_state_dict t) := by
  simp [decode, encode, parseAll_encodeTree (to_state_dict t) (noDevice_to_state_dict t)]

theorem decode_encode_template (t tmpl : JTree) :
    decode (encode t) (some tmpl) = from_state_dict [] tmpl (to_state_dict t) := by
  simp [decode, encode, parseAll_encodeTree (to_state_dict t) (noDevice_to_state_dict t)]

theorem isFunc_to_state_dict (u : JTree) : isFunc (to_state_dict u) = false := by
  cases u <;> simp only [to_state_dict] <;> rfl

theorem richMatch_isFunc (a b : JTree) (h : richMatchT a b = true) : isFunc a = isFunc b := by
  cases a <;> cases b <;> simp_all [richMatchT, isFunc]

theorem shapeMatch_notFunc (a b : JTree) (h : shapeMatchT a b = true) : isFunc a = false := by
  cases a <;> cases b <;> simp_all [shapeMatchT, isFunc]

mutual
theorem shape_rich_T (a : JTree) : ∀ b, shapeMatchT a b = true → richMatchT a b = true := by
  match a with
  | .prim s => intro b h; cases b <;> simp_all [shapeMatchT, richMatchT]
  | .arr d sh dt da => intro b h; cases b <;> simp_all [shapeMatchT, richMatchT]
  | .func f => intro b h; cases b <;> simp_all [shapeMatchT]
  | .list ti =>
    intro b h
    cases b with
    | list items =>
      have := shape_rich_L ti items (by simpa [shapeMatchT] using h)
      simpa [richMatchT] using this
    | prim s => simp [shapeMatchT] at h
    | arr d sh dt da => simp [shapeMatchT] at h
    | func f => simp [shapeMatchT] at h
    | dict es => simp [shapeMatchT] at h
  | .dict tes =>
    intro b h
    cases b with
    | dict es =>
      have := shape_rich_D tes es (by simpa [shapeMatchT] using h)
      simpa [richMatchT] using this
    | prim s => simp [shapeMatchT] at h
    | arr d sh dt da => simp [shapeMatchT] at h
    | func f => simp [shapeMatchT] at h
    | list items => simp [shapeMatchT] at h

theorem shape_rich_L (a : JList) : ∀ b, shapeMatchL a b = true → richMatchL a b = true := by
  match a with
  | .lnil => intro b h; cases b <;> simp_all [shapeMatchL, richMatchL]
  | .lcons th tt =>
    intro b h
    cases b with
    | lnil => simp [shapeMatchL] at h
    | lcons h2 t2 =>
      simp only [shapeMatchL, Bool.and_eq_true] at h
      simp [richMatchL, shape_rich_T th h2 h.1, shape_rich_L tt t2 h.2]

theorem shape_rich_D (a : JDict) : ∀ b, shapeMatchD a b = true → richMatchD a b = true := by
  match a with
  | .dnil => intro b h; cases b <;> simp_all [shapeMatchD, richMatchD]
  | .dcons k tv tt =>
    intro b h
    cases b with
    | dnil => simp [shapeMatchD] at h
    | dcons k2 v vt =>
      simp only [shapeMatchD, Bool.and_eq_true] at h
      simp [richMatchD, shape_rich_T tv v h.1.2, shape_rich_D tt vt h.2, h.1.1]
end

mutual
theorem rich_compat_T (a : JTree) : ∀ b, richMatchT a b = true → compatT a b = true := by
  match a with
  | .prim s => intro b _; simp [compatT]
  | .arr d sh dt da => intro b _; simp [compatT]
  | .func f => intro b h; cases b <;> simp_all [richMatchT, compatT, isFunc]
  | .list ti =>
    intro b h
    cases b with
    | list items =>
      have := rich_compat_L ti items (by simpa [richMatchT] using h)
      simpa [compatT] using this
    | prim s => simp [richMatchT] at h
    | arr d sh dt da => simp [richMatchT] at h
    | func f => simp [richMatchT] at h
    | dict es => simp [richMatchT] at h
  | .dict tes =>
    intro b h
    cases b with
    | dict es =>
      have := rich_compat_D tes es (by simpa [richMatchT] using h)
      simpa [compatT] using this
    | prim s => simp [richMatchT] at h
    | arr d sh dt da => simp [richMatchT] at h
    | func f => simp [richMatchT] at h
    | list items => simp [richMatchT] at h

theorem rich_compat_L (a : JList) : ∀ b, richMatchL a b = true → compatL a b = true := by
  match a with
  | .lnil => intro b h; cases b <;> simp_all [richMatchL, compatL]
  | .lcons th tt =>
    intro b h
    cases b with
    | lnil => simp [richMatchL] at h
    | lcons h2 t2 =>
      simp only [richMatchL, Bool.and_eq_true] at h
      simp [compatL, rich_compat_T th h2 h.1, rich_compat_L tt t2 h.2]

theorem rich_compat_D (a : JDict) : ∀ b, richMatchD a b = true → compatD a b = true := by
  match a with
  | .dnil => intro b h; cases b <;> simp_all [richMatchD, compatD]
  | .dcons k tv tt =>
    intro b h
    cases b with
    | dnil => simp [richMatchD] at h
    | dcons k2 v vt =>
      simp only [richMatchD, Bool.and_eq_true, decide_eq_true_eq] at h
      have hfn := richMatch_isFunc tv v h.1.2
      by_cases hf : isFunc tv
      · simp [compatD, h.1.1, hf, ← hfn, rich_compat_D tt vt h.2]
      · simp only [Bool.not_eq_true] at hf
        simp [compatD, h.1.1, hf, ← hfn, rich_compat_T tv v h.1.2, rich_compat_D tt vt h.2]
end

mutual
theorem rself_T (tmpl : JTree) : ∀ u, shapeMatchT tmpl u = true → noDeviceT u = true →
    restoredT tmpl u = u := by
  match tmpl with
  | .prim s =>
    intro u h hd
    cases u <;> simp_all [shapeMatchT, restoredT, to_state_dict]
  | .arr d sh dt da =>
    intro u h hd
    cases u with
    | arr d2 sh2 dt2 da2 =>
      simp only [noDeviceT, Bool.not_eq_true'] at hd
      simp [restoredT, to_state_dict, hd]
    | prim s => simp [shapeMatchT] at h
    | func f => simp [shapeMatchT] at h
    | list items => simp [shapeMatchT] at h
    | dict es => simp [shapeMatchT] at h
  | .func f => intro u h _; simp [shapeMatchT] at h
  | .list ti =>
    intro u h hd
    cases u with
    | list items =>
      simp only [shapeMatchT] at h
      simp only [noDeviceT] at hd
      simp [restoredT, rself_L ti items h hd]
    | prim s => simp [shapeMatchT] at h
    | arr d2 sh2 dt2 da2 => simp [shapeMatchT] at h
    | func f2 => simp [shapeMatchT] at h
    | dict es => simp [shapeMatchT] at h
  | .dict tes =>
    intro u h hd
    cases u with
    | dict es =>
      simp only [shapeMatchT] at h
      simp only [noDeviceT] at hd
      simp [restoredT, rself_D tes es h hd]
    | prim s => simp [shapeMatchT] at h
    | arr d2 sh2 dt2 da2 => simp [shapeMatchT] at h
    | func f2 => simp [shapeMatchT] at h
    | list items => simp [shapeMatchT] at h

theorem rself_L (ti : JList) : ∀ items, shapeMatchL ti items = true →
    noDeviceL items = true → restoredL ti items = items := by
  match ti with
  | .lnil => intro items h _; cases items <;> simp_all [shapeMatchL, restoredL]
  | .lcons th tt =>
    intro items h hd
    cases items with
    | lnil => simp [shapeMatchL] at h
    | lcons h2 t2 =>
      simp only [shapeMatchL, Bool.and_eq_true] at h
      simp only [noDeviceL, Bool.and_eq_true] at hd
      simp [restoredL, rself_T th h2 h.1 hd.1, rself_L tt t2 h.2 hd.2]

theorem rself_D (tes : JDict) : ∀ es, shapeMatchD tes es = true →
    noDeviceD es = true → restoredD tes es = es := by
  match tes with
  | .dnil => intro es h _; cases es <;> simp_all [shapeMatchD, restoredD]
  | .dcons k tv tt =>
    intro es h hd
    cases es with
    | dnil => simp [shapeMatchD] at h
    | dcons k2 v vt =>
      simp only [shapeMatchD, Bool.and_eq_true, decide_eq_true_eq] at h
      simp only [noDeviceD, Bool.and_eq_true] at hd
      have hnf := shapeMatch_notFunc tv v h.1.2
      simp [restoredD, hnf, rself_T tv v h.1.2 hd.1, rself_D tt vt h.2 hd.2, h.1.1]
end

mutual
theorem idem_T (u : JTree) : to_state_dict (to_state_dict u) = to_state_dict u := by
  match u with
  | .prim s => rfl
  | .arr d sh dt da => simp [to_state_dict]
  | .func f => simp [to_state_dict]
  | .list items => simp [to_state_dict, idem_L items 0]
  | .dict es => simp [to_state_dict, idem_D es]

theorem idem_L (items : JList) : ∀ j, sdEntries (indexDict j items) = indexDict j items := by
  match items with
  | .lnil => intro j; rfl
  | .lcons h t =>
    intro j
    simp [indexDict, sdEntries, isFunc_to_state_dict, idem_T h, idem_L t (j + 1)]

theorem idem_D (es : JDict) : sdEntries (sdEntries es) = sdEntries es := by
  match es with
  | .dnil => rfl
  | .dcons k v t =>
    by_cases hf : isFunc v
    · simp [sdEntries, hf, idem_D t]
    · simp [sdEntries, hf, isFunc_to_state_dict, idem_T v, idem_D t]
end

theorem isFunc_restored (tv v : JTree) (hf : isFunc tv = false) :
    isFunc (restoredT tv v) = false := by
  cases tv with
  | prim s => simp only [restoredT]; exact isFunc_to_state_dict v
  | arr d sh dt da => simp only [restoredT]; exact isFunc_to_state_dict v
  | func f => simp [isFunc] at hf
  | list ti =>
    cases v with
    | list items => simp only [restoredT]; rfl
    | prim s => simp only [restoredT]; exact isFunc_to_state_dict _
    | arr d sh dt da => simp only [restoredT]; exact isFunc_to_state_dict _
    | func f => simp only [restoredT]; exact isFunc_to_state_dict _
    | dict es => simp only [restoredT]; exact isFunc_to_state_dict _
  | dict tes =>
    cases v with
    | dict es => simp only [restoredT]; rfl
    | prim s => simp only [restoredT]; exact isFunc_to_state_dict _
    | arr d sh dt da => simp only [restoredT]; exact isFunc_to_state_dict _
    | func f => simp only [restoredT]; exact isFunc_to_state_dict _
    | list items => simp only [restoredT]; exact isFunc_to_state_dict _

mutual
theorem sdr_T (tmpl : JTree) : ∀ u, compatT tmpl u = true →
    to_state_dict (restoredT tmpl u) = to_state_dict u := by
  match tmpl with
  | .prim s => intro u _; simp [restoredT, idem_T u]
  | .arr d sh dt da => intro u _; simp [restoredT, idem_T u]
  | .func f =>
    intro u h
    cases u <;> simp_all [compatT, isFunc, restoredT, to_state_dict]
  | .list ti =>
    intro u h
    cases u with
    | list items =>
      simp only [compatT] at h
      simp [restoredT, to_state_dict, sdr_L ti items h 0]
    | prim s => simp [compatT] at h
    | arr d2 sh2 dt2 da2 => simp [compatT] at h
    | func f2 => simp [compatT, isFunc] at h
    | dict es => simp [compatT] at h
  | .dict tes =>
    intro u h
    cases u with
    | dict es =>
      simp only [compatT] at h
      simp [restoredT, to_state_dict, sdr_D tes es h]
    | prim s => simp [compatT] at h
    | arr d2 sh2 dt2 da2 => simp [compatT] at h
    | func f2 => simp [compatT, isFunc] at h
    | list items => simp [compatT] at h

theorem sdr_L (ti : JList) : ∀ items, compatL ti items = true →
    ∀ j, indexDict j (restoredL ti items) = indexDict j items := by
  match ti with
  | .lnil =>
    intro items h j
    cases items with
    | lnil => rfl
    | lcons h2 t2 => simp [compatL] at h
  | .lcons th tt =>
    intro items h j
    cases items with
    | lnil => simp [compatL] at h
    | lcons h2 t2 =>
      simp only [compatL, Bool.and_eq_true] at h
      simp [restoredL, indexDict, sdr_T th h2 h.1, sdr_L tt t2 h.2 (j + 1)]

theorem sdr_D (tes : JDict) : ∀ es, compatD tes es = true →
    sdEntries (restoredD tes es) = sdEntries es := by
  match tes with
  | .dnil =>
    intro es h
    cases es with
    | dnil => rfl
    | dcons k v t => simp [compatD] at h
  | .dcons k tv tt =>
    intro es h
    cases es with
    | dnil => simp [compatD] at h
    | dcons k2 v vt =>
      simp only [compatD, Bool.and_eq_true, decide_eq_true_eq] at h
      obtain ⟨⟨hk, hfv⟩, hrest⟩ := h
      subst hk
      by_cases hf : isFunc tv
      · simp only [hf, if_true] at hfv
        simp [restoredD, sdEntries, hf, hfv, sdr_D tt vt hrest]
      · simp only [hf] at hfv
        simp only [Bool.false_eq_true, if_false, Bool.and_eq_true, Bool.not_eq_true'] at hfv
        simp [restoredD, sdEntries, hf, hfv.1, isFunc_restored tv v (by simpa using hf),
          sdr_T tv v hfv.2, sdr_D tt vt hrest]
end

/-- C1: for every StateTree `t` (well-formed per the spec's unique-key
invariant and, as in the spec's data model, free of device arrays) and
every template with the same shape as `t`, decoding the encoding of `t`
with that template returns a tree equal to `t`: `save_checkpoint` followed
by `restore_checkpoint` with a matching target reproduces the original
checkpoint tree. -/
theorem c1_decode_encode_roundtrip (t tmpl : JTree)
    (hshape : shapeMatchT tmpl t = true) (hwf : wfT t = true)
    (hdev : noDeviceT t = true) :
    decode (encode t) (some tmpl) = .ok t := by
  have hc : compatT tmpl t = true := rich_compat_T tmpl t (shape_rich_T tmpl t hshape)
  rw [decode_encode_template, master_T tmpl t [] hc hwf, rself_T tmpl t hshape hdev]

/-- C5: for every stored tree, decode without a template never raises: it
returns the generic stored tree, in which ordered containers have become
mappings with sequential integer keys (`indexDict 0`) while dictionaries
keep their mapping keys (`sdEntries`). -/
theorem c5_decode_no_template_generic (t : JTree) :
    decode (encode t) none = .ok (to_state_dict t) ∧
    (∀ items, to_state_dict (.list items) = .dict (indexDict 0 items)) ∧
    (∀ es, to_state_dict (.dict es) = .dict (sdEntries es)) :=
  ⟨decode_encode_no_template t, fun _ => by simp [to_state_dict],
    fun _ => by simp [to_state_dict]⟩

/-- C10: for every stored tree and every template whose keys and nesting
match it (`compatT` places no constraint at array leaves), restore
succeeds and returns the stored array shapes and values: the reconstructed
tree has the same stored content as the saved tree
(`to_state_dict (restoredT tmpl t) = to_state_dict t`), and at an array
leaf the template's own shape is ignored entirely. -/
theorem c10_template_shapes_not_binding (t tmpl : JTree)
    (hc : compatT tmpl t = true) (hwf : wfT t = true) :
    decode (encode t) (some tmpl) = .ok (restoredT tmpl t) ∧
    to_state_dict (restoredT tmpl t) = to_state_dict t ∧
    (∀ d sh dt da d2 sh2 dt2 da2,
      decode (encode (.arr d2 sh2 dt2 da2)) (some (.arr d sh dt da)) =
        .ok (.arr false sh2 dt2 da2)) := by
  refine ⟨?_, sdr_T tmpl t hc, ?_⟩
  · rw [decode_encode_template, master_T tmpl t [] hc hwf]
  · intro d sh dt da d2 sh2 dt2 da2
    rw [decode_encode_template]
    simp [from_state_dict, to_state_dict]

mutual
theorem funcNames_sd (u : JTree) : funcNamesT (to_state_dict u) = [] := by
  match u with
  | .prim s => rfl
  | .arr d sh dt da => simp [to_state_dict, funcNamesT]
  | .func f => simp [to_state_dict, funcNamesT]
  | .list items => simp [to_state_dict, funcNamesT, funcNames_idx items 0]
  | .dict es => simp [to_state_dict, funcNamesT, funcNames_sdE es]

theorem funcNames_idx (items : JList) : ∀ j, funcNamesD (indexDict j items) = [] := by
  match items with
  | .lnil => intro j; rfl
  | .lcons h t =>
    intro j
    simp [indexDict, funcNamesD, funcNames_sd h, funcNames_idx t (j + 1)]

theorem funcNames_sdE (es : JDict) : funcNamesD (sdEntries es) = [] := by
  match es with
  | .dnil => rfl
  | .dcons k v t =>
    by_cases hf : isFunc v
    · simp [sdEntries, hf, funcNames_sdE t]
    · simp [sdEntries, hf, funcNamesD, funcNames_sd v, funcNames_sdE t]
end

mutual
theorem encode_no_tFunc (u : JTree) : funcNamesT u = [] →
    ∀ f, Tok.tFunc f ∉ encodeTree u := by
  match u with
  | .prim s => intro _ f; simp [encodeTree]
  | .arr d sh dt da => intro _ f; simp [encodeTree]
  | .func g => intro h; simp [funcNamesT] at h
  | .list items =>
    intro h f
    simp only [funcNamesT] at h
    simp [encodeTree, encodeList_no_tFunc items h f]
  | .dict es =>
    intro h f
    simp only [funcNamesT] at h
    simp [encodeTree, encodeDict_no_tFunc es h f]

theorem encodeList_no_tFunc (l : JList) : funcNamesL l = [] →
    ∀ f, Tok.tFunc f ∉ encodeList l := by
  match l with
  | .lnil => intro _ f; simp [encodeList]
  | .lcons h t =>
    intro hn f
    simp only [funcNamesL, List.append_eq_nil] at hn
    simp [encodeList, encode_no_tFunc h hn.1 f, encodeList_no_tFunc t hn.2 f]

theorem encodeDict_no_tFunc (d : JDict) : funcNamesD d = [] →
    ∀ f, Tok.tFunc f ∉ encodeDict d := by
  match d with
  | .dnil => intro _ f; simp [encodeDict]
  | .dcons k v t =>
    intro hn f
    simp only [funcNamesD, List.append_eq_nil] at hn
    simp [encodeDict, encode_no_tFunc v hn.1 f, encodeDict_no_tFunc t hn.2 f]
end

mutual
theorem noDevice_restored_T (tmpl : JTree) : ∀ u, noDeviceT (restoredT tmpl u) = true := by
  match tmpl with
  | .prim s => intro u; simp only [restoredT]; exact noDevice_to_state_dict u
  | .arr d sh dt da => intro u; simp only [restoredT]; exact noDevice_to_state_dict u
  | .func f => intro u; simp only [restoredT]; rfl
  | .list ti =>
    intro u
    cases u with
    | list items =>
      simp only [restoredT, noDeviceT]
      exact noDevice_restored_L ti items
    | prim s => simp only [restoredT]; exact noDevice_to_state_dict _
    | arr d2 sh2 dt2 da2 => simp only [restoredT]; exact noDevice_to_state_dict _
    | func f2 => simp only [restoredT]; exact noDevice_to_state_dict _
    | dict es => simp only [restoredT]; exact noDevice_to_state_dict _
  | .dict tes =>
    intro u
    cases u with
    | dict es =>
      simp only [restoredT, noDeviceT]
      exact noDevice_restored_D tes es
    | prim s => simp only [restoredT]; exact noDevice_to_state_dict _
    | arr d2 sh2 dt2 da2 => simp only [restoredT]; exact noDevice_to_state_dict _
    | func f2 => simp only [restoredT]; exact noDevice_to_state_dict _
    | list items => simp only [restoredT]; exact noDevice_to_state_dict _

theorem noDevice_restored_L (ti : JList) : ∀ items, noDeviceL (restoredL ti items) = true := by
  match ti with
  | .lnil => intro items; rfl
  | .lcons th tt =>
    intro items
    cases items with
    | lnil => rfl
    | lcons h t =>
      simp [restoredL, noDeviceL, noDevice_restored_T th h, noDevice_restored_L tt t]

theorem noDevice_restored_D (tes : JDict) : ∀ es, noDeviceD (restoredD tes es) = true := by
  match tes with
  | .dnil => intro es; rfl
  | .dcons k tv tt =>
    intro es
    cases es with
    | dnil => rfl
    | dcons k2 v vt =>
      by_cases hf : isFunc tv
      · cases tv <;> simp [isFunc] at hf
        simp [restoredD, noDeviceD, noDeviceT, isFunc, noDevice_restored_D tt vt]
      · simp [restoredD, hf, noDeviceD, noDevice_restored_T tv v, noDevice_restored_D tt vt]
end

mutual
theorem funcNames_restored_T (tmpl : JTree) : ∀ u, compatT tmpl u = true →
    funcNamesT (restoredT tmpl u) = funcNamesT tmpl := by
  match tmpl with
  | .prim s =>
    intro u _
    simp only [restoredT]
    simp [funcNames_sd u, funcNamesT]
  | .arr d sh dt da =>
    intro u _
    simp only [restoredT]
    simp [funcNames_sd u, funcNamesT]
  | .func f => intro u _; simp only [restoredT]
  | .list ti =>
    intro u h
    cases u with
    | list items =>
      simp only [compatT] at h
      simp only [restoredT, funcNamesT]
      exact funcNames_restored_L ti items h
    | prim s => simp [compatT] at h
    | arr d2 sh2 dt2 da2 => simp [compatT] at h
    | func f2 => simp [compatT, isFunc] at h
    | dict es => simp [compatT] at h
  | .dict tes =>
    intro u h
    cases u with
    | dict es =>
      simp only [compatT] at h
      simp only [restoredT, funcNamesT]
      exact funcNames_restored_D tes es h
    | prim s => simp [compatT] at h
    | arr d2 sh2 dt2 da2 => simp [compatT] at h
    | func f2 => simp [compatT, isFunc] at h
    | list items => simp [compatT] at h

theorem funcNames_restored_L (ti : JList) : ∀ items, compatL ti items = true →
    funcNamesL (restoredL ti items) = funcNamesL ti := by
  match ti with
  | .lnil =>
    intro items h
    cases items with
    | lnil => rfl
    | lcons h2 t2 => simp [compatL] at h
  | .lcons th tt =>
    intro items h
    cases items with
    | lnil => simp [compatL] at h
    | lcons h2 t2 =>
      simp only [compatL, Bool.and_eq_true] at h
      simp [restoredL, funcNamesL, funcNames_restored_T th h2 h.1,
        funcNames_restored_L tt t2 h.2]

theorem funcNames_restored_D (tes : JDict) : ∀ es, compatD tes es = true →
    funcNamesD (restoredD tes es) = funcNamesD tes := by
  match tes with
  | .dnil =>
    intro es h
    cases es with
    | dnil => rfl
    | dcons k v t => simp [compatD] at h
  | .dcons k tv tt =>
    intro es h
    cases es with
    | dnil => simp [compatD] at h
    | dcons k2 v vt =>
      simp only [compatD, Bool.and_eq_true, decide_eq_true_eq] at h
      obtain ⟨⟨hk, hfv⟩, hrest⟩ := h
      by_cases hf : isFunc tv
      · simp [restoredD, hf, funcNamesD, funcNames_restored_D tt vt hrest]
      · simp only [hf] at hfv
        simp only [Bool.false_eq_true, if_false, Bool.and_eq_true, Bool.not_eq_true'] at hfv
        simp [restoredD, hf, funcNamesD, funcNames_restored_T tv v hfv.2,
          funcNames_restored_D tt vt hrest]
end

/-- C9: for every checkpoint tree containing function-valued,
non-serializable fields (such as a TrainState's `apply_fn` and `tx`) and a
matching template, those fields are not written to the stored bytes (no
function token ever appears in `encode t`); restoring with the template
returns them taken from the template (`funcNamesT` of the result equals
`funcNamesT tmpl`); every array leaf comes back as a host array even when
the saved tree held device arrays (`noDeviceT` of the result); and the
round trip preserves all stored leaf values (`to_state_dict` of the result
equals `to_state_dict t`) though not the leaf array types. -/
theorem c9_function_fields_and_host_arrays (t tmpl : JTree)
    (hm : richMatchT tmpl t = true) (hwf : wfT t = true) :
    (∀ f, Tok.tFunc f ∉ encode t) ∧
    decode (encode t) (some tmpl) = .ok (restoredT tmpl t) ∧
    funcNamesT (restoredT tmpl t) = funcNamesT tmpl ∧
    noDeviceT (restoredT tmpl t) = true ∧
    to_state_dict (restoredT tmpl t) = to_state_dict t := by
  have hc := rich_compat_T tmpl t hm
  refine ⟨fun f => encode_no_tFunc (to_state_dict t) (funcNames_sd t) f, ?_,
    funcNames_restored_T tmpl t hc, noDevice_restored_T tmpl t, sdr_T tmpl t hc⟩
  rw [decode_encode_template, master_T tmpl t [] hc hwf]

/-- C2: for every store state and step, if overwriting is disallowed and
the store already contains an entry at a step greater than or equal to
that step, then save at that step raises AlreadyExists and the stored
entries are unchanged by the failed call. -/
theorem c2_overwrite_guard (pol : RetentionPolicy) (s : Store) (stp : Nat) (t : JTree)
    (how : pol.overwrite_allowed = false)
    (hex : ∃ e ∈ s.entries, stp ≤ e.step) :
    save_checkpoint pol s stp t = (s, .error (.AlreadyExists stp)) := by
  have hge : existsGE s stp = true := by
    simp only [existsGE, List.any_eq_true, decide_eq_true_eq]
    obtain ⟨e, he, hle⟩ := hex
    exact ⟨e, he, hle⟩
  simp [save_checkpoint, write, how, hge]

theorem lastEntry_mem (l : List CheckpointEntry) (e : CheckpointEntry)
    (h : lastEntry l = some e) : e ∈ l := by
  induction l with
  | nil => simp [lastEntry] at h
  | cons x r ih =>
    cases r with
    | nil => simp [lastEntry] at h; simp [h]
    | cons y r2 =>
      rw [lastEntry] at h
      exact List.mem_cons_of_mem x (ih h)

theorem lastEntry_max : ∀ (l : List CheckpointEntry),
    List.Pairwise (fun a b => a.step < b.step) l → ∀ e, lastEntry l = some e →
    ∀ e2 ∈ l, e2.step ≤ e.step := by
  intro l
  induction l with
  | nil => intro _ e h; simp [lastEntry] at h
  | cons x r ih =>
    intro hs e h e2 he2
    cases r with
    | nil =>
      simp only [lastEntry, Option.some.injEq] at h
      subst h
      simp only [List.mem_singleton] at he2
      subst he2
      exact le_refl _
    | cons y r2 =>
      rw [lastEntry] at h
      rw [List.pairwise_cons] at hs
      rcases List.mem_cons.mp he2 with he2 | he2
      · subst he2
        exact le_of_lt (hs.1 e (lastEntry_mem _ e h))
      · exact ih hs.2 e h e2 he2

theorem lastEntry_of_ne_nil (l : List CheckpointEntry) (h : l ≠ []) :
    ∃ e, lastEntry l = some e := by
  induction l with
  | nil => exact absurd rfl h
  | cons x r ih =>
    cases r with
    | nil => exact ⟨x, rfl⟩
    | cons y r2 =>
      obtain ⟨e, he⟩ := ih (by simp)
      exact ⟨e, by rw [lastEntry]; exact he⟩

/-- C6: for every store state, restore with no step specified reads the
entry with the highest available step; restore fails with NotFound when
the store has no entries, or no entry at the requested step. -/
theorem c6_restore_latest_or_notfound (s : Store) (template : Option JTree) :
    (s.entries = [] → restore_checkpoint s none template = .error .NotFound) ∧
    (∀ q, findEntry q s.entries = none →
      restore_checkpoint s (some q) template = .error .NotFound) ∧
    (List.Pairwise (fun a b => a.step < b.step) s.entries → s.entries ≠ [] →
      ∃ e, e ∈ s.entries ∧ (∀ e2 ∈ s.entries, e2.step ≤ e.step) ∧
        restore_checkpoint s none template = decode e.bytes template) := by
  refine ⟨?_, ?_, ?_⟩
  · intro h
    simp [restore_checkpoint, h, lastEntry]
  · intro q h
    simp [restore_checkpoint, h]
  · intro hs hne
    obtain ⟨e, he⟩ := lastEntry_of_ne_nil s.entries hne
    exact ⟨e, lastEntry_mem _ e he, lastEntry_max _ hs e he,
      by simp [restore_checkpoint, he]⟩

theorem wait_exec (pol : RetentionPolicy) (evs : List AsyncEv) : ∀ (m : Manager),
    wait_until_finished pol (execSched pol m evs) =
      ⟨saveAll pol m.store (m.pending ++ subsOf evs), []⟩ := by
  induction evs with
  | nil => intro m; simp [execSched, wait_until_finished, subsOf]
  | cons ev evs ih =>
    intro m
    cases ev with
    | submit stp t =>
      have hstep : execSched pol m (AsyncEv.submit stp t :: evs) =
          execSched pol ⟨m.store, m.pending ++ [(stp, t)]⟩ evs := by
        simp [execSched, applyEv]
      rw [hstep, ih ⟨m.store, m.pending ++ [(stp, t)]⟩]
      simp [subsOf, List.append_assoc]
    | work =>
      cases hp : m.pending with
      | nil =>
        have hstep : execSched pol m (AsyncEv.work :: evs) = execSched pol m evs := by
          simp [execSched, applyEv, hp]
        rw [hstep, ih m]
        simp [subsOf, hp]
      | cons p rest =>
        obtain ⟨ps, pt⟩ := p
        have hstep : execSched pol m (AsyncEv.work :: evs) =
            execSched pol ⟨(save_checkpoint pol m.store ps pt).1, rest⟩ evs := by
          simp [execSched, applyEv, hp]
        rw [hstep, ih ⟨(save_checkpoint pol m.store ps pt).1, rest⟩]
        simp [subsOf, saveAll]

/-- C7: for every asynchronous schedule (any interleaving of submissions
and single-worker steps, so writes are never concurrent), waiting until
all submitted saves have finished leaves an empty queue and a store equal
to performing every submitted save sequentially in submission order,
pruned per policy by each save. -/
theorem c7_async_submission_order (pol : RetentionPolicy) (store0 : Store)
    (evs : List AsyncEv) :
    wait_until_finished pol (execSched pol ⟨store0, []⟩ evs) =
      ⟨saveAll pol store0 (subsOf evs), []⟩ := by
  have h := wait_exec pol evs ⟨store0, []⟩
  simpa using h

theorem mem_insertAsc (x y : Nat) (l : List Nat) : x ∈ insertAsc y l ↔ x = y ∨ x ∈ l := by
  induction l with
  | nil => simp [insertAsc]
  | cons z r ih =>
    by_cases h : y ≤ z
    · simp [insertAsc, h]
    · simp only [insertAsc, h, if_false, List.mem_cons, ih]
      tauto

theorem insertAsc_length (x : Nat) (l : List Nat) :
    (insertAsc x l).length = l.length + 1 := by
  induction l with
  | nil => rfl
  | cons z r ih =>
    by_cases h : x ≤ z
    · simp [insertAsc, h]
    · simp [insertAsc, h, ih]

theorem sortAsc_append_single (P : List Nat) (x : Nat) :
    sortAsc (P ++ [x]) = insertAsc x (sortAsc P) := by
  simp [sortAsc, List.foldl_append]

theorem mem_foldl_insertAsc (l : List Nat) : ∀ (acc : List Nat) (x : Nat),
    x ∈ List.foldl (fun acc y => insertAsc y acc) acc l ↔ x ∈ acc ∨ x ∈ l := by
  induction l with
  | nil => intro acc x; simp
  | cons z r ih =>
    intro acc x
    rw [List.foldl_cons, ih, mem_insertAsc]
    simp only [List.mem_cons]
    tauto

theorem mem_sortAsc (x : Nat) (l : List Nat) : x ∈ sortAsc l ↔ x ∈ l := by
  rw [sortAsc, mem_foldl_insertAsc]
  simp

theorem pairwise_insertAsc (x : Nat) (l : List Nat)
    (hs : List.Pairwise (fun a b => a < b) l) (hx : x ∉ l) :
    List.Pairwise (fun a b => a < b) (insertAsc x l) := by
  induction l with
  | nil => simp [insertAsc]
  | cons z r ih =>
    rw [List.pairwise_cons] at hs
    simp only [List.mem_cons] at hx
    push_neg at hx
    by_cases h : x ≤ z
    · have hxz : x < z := lt_of_le_of_ne h hx.1
      rw [insertAsc, if_pos h, List.pairwise_cons]
      refine ⟨?_, List.pairwise_cons.mpr hs⟩
      intro b hb
      rcases List.mem_cons.mp hb with hb | hb
      · exact hb ▸ hxz
      · exact lt_trans hxz (hs.1 b hb)
    · rw [insertAsc, if_neg h, List.pairwise_cons]
      refine ⟨?_, ih hs.2 hx.2⟩
      intro b hb
      rcases (mem_insertAsc b x r).mp hb with hb | hb
      · exact hb ▸ Nat.lt_of_not_le h
      · exact hs.1 b hb

theorem pairwise_foldl_insertAsc (l : List Nat) : ∀ (acc : List Nat),
    List.Pairwise (fun a b => a < b) acc → l.Nodup →
    (∀ z ∈ l, z ∉ acc) →
    List.Pairwise (fun a b => a < b) (List.foldl (fun acc y => insertAsc y acc) acc l) := by
  induction l with
  | nil => intro acc h _ _; simpa using h
  | cons z r ih =>
    intro acc hacc hnd hdisj
    rw [List.foldl_cons]
    apply ih
    · exact pairwise_insertAsc z acc hacc (hdisj z (by simp))
    · exact (List.nodup_cons.mp hnd).2
    · intro w hw hmem
      rcases (mem_insertAsc w z acc).mp hmem with h1 | h1
      · exact (List.nodup_cons.mp hnd).1 (h1 ▸ hw)
      · exact hdisj w (by simp [hw]) h1

theorem pairwise_sortAsc (P : List Nat) (hP : P.Nodup) :
    List.Pairwise (fun a b => a < b) (sortAsc P) :=
  pairwise_foldl_insertAsc P [] (List.Pairwise.nil) hP (by simp)

theorem keepLast_cons (n y : Nat) (r : List Nat) :
    keepLast n (y :: r) = if r.length < n then y :: r else keepLast n r := by
  by_cases h : r.length < n
  · have h0 : r.length + 1 - n = 0 := by omega
    simp [keepLast, List.length_cons, h0, h]
  · have h0 : r.length + 1 - n = (r.length - n) + 1 := by omega
    simp [keepLast, List.length_cons, h0, List.drop_succ_cons, h]

theorem keepLast_self (n : Nat) (l : List Nat) (h : l.length ≤ n) : keepLast n l = l := by
  have h0 : l.length - n = 0 := by omega
  simp [keepLast, h0]

theorem keepLast_length (n : Nat) (l : List Nat) :
    (keepLast n l).length = l.length - (l.length - n) := by
  simp [keepLast]

theorem insertAsc_small (x : Nat) (l : List Nat) (h : ∀ z ∈ l, x < z) :
    insertAsc x l = x :: l := by
  cases l with
  | nil => rfl
  | cons y r => simp [insertAsc, le_of_lt (h y (by simp))]

theorem keepLast_insertAsc (n x : Nat) : ∀ (L : List Nat),
    List.Pairwise (fun a b => a < b) L → x ∉ L →
    keepLast n (insertAsc x (keepLast n L)) = keepLast n (insertAsc x L) := by
  intro L
  induction L with
  | nil => intro _ _; simp [keepLast]
  | cons y R ih =>
    intro hs hx
    rw [List.pairwise_cons] at hs
    simp only [List.mem_cons] at hx
    push_neg at hx
    rw [keepLast_cons n y R]
    by_cases hR : R.length < n
    · rw [if_pos hR]
    · rw [if_neg hR]
      by_cases hxy : x ≤ y
      · have hxy2 : x < y := lt_of_le_of_ne hxy hx.1
        have hin : insertAsc x (y :: R) = x :: y :: R := by
          rw [insertAsc, if_pos hxy]
        rw [hin, keepLast_cons n x (y :: R),
          if_neg (by simp only [List.length_cons]; omega),
          keepLast_cons n y R, if_neg hR]
        have hxsmall : ∀ z ∈ keepLast n R, x < z := by
          intro z hz
          exact lt_trans hxy2 (hs.1 z ((List.drop_sublist _ _).subset hz))
        rw [insertAsc_small x (keepLast n R) hxsmall,
          keepLast_cons n x (keepLast n R)]
        have hlen := keepLast_length n R
        rw [if_neg (by omega)]
        exact keepLast_self n (keepLast n R) (by omega)
      · have hin : insertAsc x (y :: R) = y :: insertAsc x R := by
          rw [insertAsc, if_neg hxy]
        rw [hin, keepLast_cons n y (insertAsc x R),
          if_neg (by rw [insertAsc_length]; omega)]
        exact ih hs.2 hx.2

theorem map_insertEntry (e : CheckpointEntry) : ∀ (l : List CheckpointEntry),
    e.step ∉ l.map (fun x => x.step) →
    (insertEntry e l).map (fun x => x.step) = insertAsc e.step (l.map (fun x => x.step)) := by
  intro l
  induction l with
  | nil => intro _; rfl
  | cons x rest ih =>
    intro h
    simp only [List.map_cons, List.mem_cons] at h
    push_neg at h
    by_cases h1 : e.step < x.step
    · simp [insertEntry, h1, insertAsc, le_of_lt h1]
    · have h3 : ¬ e.step ≤ x.step := by
        rcases h with ⟨hne, _⟩
        omega
      simp [insertEntry, h1, h.1, insertAsc, h3, ih h.2]

theorem list_steps_prune (n : Nat) (s : Store) :
    list_steps (prune (some n) s) = keepLast n (list_steps s) := by
  simp [list_steps, prune, keepLast, List.map_drop, List.length_map]

theorem save_checkpoint_overwrite_ok (N : Option Nat) (s : Store) (stp : Nat) (t : JTree) :
    save_checkpoint ⟨N, true⟩ s stp t =
      (prune N ⟨insertEntry ⟨stp, stepName stp, encode t⟩ s.entries⟩, .ok ()) := by
  simp [save_checkpoint, write]

theorem saveAll_topN (N : Nat) : ∀ (saves : List (Nat × JTree)) (P : List Nat) (s : Store),
    list_steps s = keepLast N (sortAsc P) → P.Nodup →
    (saves.map Prod.fst).Nodup → (∀ q ∈ saves.map Prod.fst, q ∉ P) →
    list_steps (saveAll ⟨some N, true⟩ s saves) =
      keepLast N (sortAsc (P ++ saves.map Prod.fst)) := by
  intro saves
  induction saves with
  | nil => intro P s hs _ _ _; simpa using hs
  | cons sv rest ih =>
    obtain ⟨stp, t⟩ := sv
    intro P s hs hP hnd hdisj
    simp only [List.map_cons, List.nodup_cons] at hnd
    have hstp_notP : stp ∉ P := hdisj stp (by simp)
    have hstp_notS : stp ∉ list_steps s := by
      rw [hs]
      intro hmem
      exact hstp_notP ((mem_sortAsc stp P).mp ((List.drop_sublist _ _).subset hmem))
    have h1 : (save_checkpoint ⟨some N, true⟩ s stp t).1 =
        prune (some N) ⟨insertEntry ⟨stp, stepName stp, encode t⟩ s.entries⟩ := by
      rw [save_checkpoint_overwrite_ok]
    have hstep : list_steps (prune (some N)
        ⟨insertEntry ⟨stp, stepName stp, encode t⟩ s.entries⟩) =
        keepLast N (sortAsc (P ++ [stp])) := by
      rw [list_steps_prune]
      have h2 : list_steps ⟨insertEntry ⟨stp, stepName stp, encode t⟩ s.entries⟩ =
          insertAsc stp (list_steps s) := map_insertEntry _ s.entries hstp_notS
      rw [h2, hs, keepLast_insertAsc N stp (sortAsc P) (pairwise_sortAsc P hP)
        (fun hmem => hstp_notP ((mem_sortAsc stp P).mp hmem)), sortAsc_append_single]
    have hPstp : (P ++ [stp]).Nodup := by
      simp [List.nodup_append, hP, hstp_notP]
    have hdisj2 : ∀ q ∈ rest.map Prod.fst, q ∉ P ++ [stp] := by
      intro q hq
      simp only [List.mem_append, List.mem_singleton]
      push_neg
      refine ⟨hdisj q (by simp [hq]), ?_⟩
      intro he
      exact hnd.1 (he ▸ hq)
    rw [saveAll, h1, ih (P ++ [stp]) _ hstep hPstp hnd.2 hdisj2]
    simp [List.append_assoc]

theorem saveAllResults_fst (pol : RetentionPolicy) : ∀ (l : List (Nat × JTree)) (s : Store),
    (saveAllResults pol s l).1 = saveAll pol s l := by
  intro l
  induction l with
  | nil => intro s; rfl
  | cons sv rest ih =>
    obtain ⟨stp, t⟩ := sv
    intro s
    simp [saveAllResults, saveAll, ih]

theorem saveAllResults_ok (N : Option Nat) : ∀ (l : List (Nat × JTree)) (s : Store),
    ∀ r ∈ (saveAllResults ⟨N, true⟩ s l).2, r = .ok () := by
  intro l
  induction l with
  | nil => intro s r hr; simp [saveAllResults] at hr
  | cons sv rest ih =>
    obtain ⟨stp, t⟩ := sv
    intro s r hr
    simp only [saveAllResults, List.mem_cons] at hr
    rcases hr with hr | hr
    · rw [hr]
      have := save_checkpoint_overwrite_ok N s stp t
      rw [this]
    · exact ih _ r hr

/-- C3: for every bound N > 0 and every sequence of saves at pairwise
distinct steps under policy max_keep = N (with overwriting allowed, so
every save succeeds), after the saves complete `list_steps` returns
exactly the N highest steps saved, in ascending order — pruning removed
the oldest entries first, and only when the entry count exceeded N. -/
theorem c3_retention (N : Nat) (saves : List (Nat × JTree)) (hN : 0 < N)
    (hnd : (saves.map Prod.fst).Nodup) :
    (∀ r ∈ (saveAllResults ⟨some N, true⟩ ⟨[]⟩ saves).2, r = .ok ()) ∧
    list_steps (saveAllResults ⟨some N, true⟩ ⟨[]⟩ saves).1 =
      keepLast N (sortAsc (saves.map Prod.fst)) := by
  refine ⟨saveAllResults_ok (some N) saves ⟨[]⟩, ?_⟩
  rw [saveAllResults_fst]
  have h := saveAll_topN N saves [] ⟨[]⟩ (by simp [list_steps, sortAsc, keepLast])
    List.nodup_nil hnd (by simp)
  simpa using h

theorem firstNotFound_some_props : ∀ (ks : List CKey) (sE : JDict) (k : CKey),
    firstNotFound ks sE = some k → dlookupD k sE = none ∧ keyIn k ks = true := by
  intro ks
  induction ks with
  | nil => intro sE k h; simp [firstNotFound] at h
  | cons k2 r ih =>
    intro sE k h
    rw [firstNotFound] at h
    by_cases hl : (dlookupD k2 sE).isSome = true
    · rw [if_pos hl] at h
      obtain ⟨h1, h2⟩ := ih sE k h
      refine ⟨h1, ?_⟩
      by_cases he : k = k2 <;> simp [keyIn, he, h2]
    · rw [if_neg hl] at h
      injection h with h
      subst h
      refine ⟨?_, by simp [keyIn]⟩
      cases hd : dlookupD k2 sE with
      | none => rfl
      | some v => rw [hd] at hl; simp at hl

theorem firstUnknown_some_props : ∀ (sE : JDict) (allowed : List CKey) (k : CKey),
    firstUnknown allowed sE = some k →
    keyIn k allowed = false ∧ keyIn k (dkeys sE) = true := by
  intro sE
  match sE with
  | .dnil => intro allowed k h; simp [firstUnknown] at h
  | .dcons k2 v t =>
    intro allowed k h
    rw [firstUnknown] at h
    by_cases hin : keyIn k2 allowed = true
    · rw [if_pos hin] at h
      obtain ⟨h1, h2⟩ := firstUnknown_some_props t allowed k h
      refine ⟨h1, ?_⟩
      by_cases he : k = k2 <;> simp [dkeys, keyIn, he, h2]
    · rw [if_neg hin] at h
      injection h with h
      subst h
      exact ⟨by simpa using hin, by simp [dkeys, keyIn]⟩

/-- C4: for every stored mapping and template mapping, decoding with the
template raises SchemaMismatch naming the offending field and its path in
both mismatch directions: when the template requires a field absent from
the stored tree, the error is `missingField` naming the first such field
(which is genuinely required and absent); when the stored tree contains a
field the template does not mention, the error is `unknownField` naming
the first such field (genuinely stored and unmentioned); and a
SchemaMismatch of `from_state_dict` surfaces unchanged through `decode`
of the stored bytes. -/
theorem c4_schema_mismatch_naming (path : List CKey) (tes sE : JDict) :
    (∀ k, firstNotFound (nonFuncKeys tes) sE = some k →
      dlookupD k sE = none ∧ keyIn k (nonFuncKeys tes) = true ∧
      from_state_dict path (.dict tes) (.dict sE) =
        .error (.SchemaMismatch (.missingField k path))) ∧
    (∀ k, firstNotFound (nonFuncKeys tes) sE = none →
      firstUnknown (nonFuncKeys tes) sE = some k →
      keyIn k (nonFuncKeys tes) = false ∧ keyIn k (dkeys sE) = true ∧
      from_state_dict path (.dict tes) (.dict sE) =
        .error (.SchemaMismatch (.unknownField k path))) ∧
    (∀ (stored tmpl : JTree) (e : CkptErr), noDeviceT stored = true →
      from_state_dict [] tmpl stored = .error e →
      decode (encodeTree stored) (some tmpl) = .error e) := by
  refine ⟨?_, ?_, ?_⟩
  · intro k h
    obtain ⟨h1, h2⟩ := firstNotFound_some_props (nonFuncKeys tes) sE k h
    exact ⟨h1, h2, by simp [from_state_dict, checkMissing, h]⟩
  · intro k h0 h
    obtain ⟨h1, h2⟩ := firstUnknown_some_props sE (nonFuncKeys tes) k h
    exact ⟨h1, h2, by simp [from_state_dict, checkMissing, h0, checkUnknown, h]⟩
  · intro stored tmpl e hdev hfe
    simp [decode, parseAll_encodeTree stored hdev, hfe]

theorem digitsRev_correct : ∀ fuel n, n ≤ fuel → ofDigitsLE (digitsRev fuel n) = n := by
  intro fuel
  induction fuel with
  | zero =>
    intro n h
    have h0 : n = 0 := by omega
    subst h0
    rfl
  | succ f ih =>
    intro n h
    cases n with
    | zero => rfl
    | succ k =>
      rw [digitsRev, ofDigitsLE]
      have hdiv : (k + 1) / 10 ≤ f := by
        have := Nat.div_lt_self (Nat.succ_pos k) (by norm_num : (1 : Nat) < 10)
        omega
      rw [ih _ hdiv]
      exact Nat.mod_add_div (k + 1) 10

theorem digitsRev_lt10 : ∀ fuel n d, d ∈ digitsRev fuel n → d < 10 := by
  intro fuel
  induction fuel with
  | zero => intro n d h; simp [digitsRev] at h
  | succ f ih =>
    intro n d h
    cases n with
    | zero => simp [digitsRev] at h
    | succ k =>
      rw [digitsRev] at h
      rcases List.mem_cons.mp h with h | h
      · subst h; exact Nat.mod_lt _ (by norm_num)
      · exact ih _ d h

theorem valBE_append (a : List Nat) (d : Nat) : valBE (a ++ [d]) = 10 * valBE a + d := by
  induction a with
  | nil => simp [valBE]
  | cons e y ih =>
    have hlen : (y ++ [d]).length = y.length + 1 := by simp
    simp only [List.cons_append, List.append_eq, valBE, ih]
    rw [hlen, pow_succ]
    ring

theorem valBE_reverse (l : List Nat) : valBE l.reverse = ofDigitsLE l := by
  induction l with
  | nil => rfl
  | cons d r ih =>
    simp only [List.reverse_cons, valBE_append, ih, ofDigitsLE]
    ring

theorem valBE_lt (a : List Nat) (h : ∀ d ∈ a, d < 10) : valBE a < 10 ^ a.length := by
  induction a with
  | nil => simp [valBE]
  | cons d r ih =>
    have hd : d < 10 := h d (by simp)
    have hr : valBE r < 10 ^ r.length := ih (fun x hx => h x (by simp [hx]))
    simp only [valBE, List.length_cons]
    calc d * 10 ^ r.length + valBE r < d * 10 ^ r.length + 10 ^ r.length := by omega
      _ = (d + 1) * 10 ^ r.length := by ring
      _ ≤ 10 * 10 ^ r.length := mul_le_mul_right' (by omega) _
      _ = 10 ^ (r.length + 1) := by rw [pow_succ]; ring

theorem lexLtB_of_valBE : ∀ (a b : List Nat), a.length = b.length →
    (∀ d ∈ a, d < 10) → (∀ d ∈ b, d < 10) → valBE a < valBE b → lexLtB a b = true := by
  intro a
  induction a with
  | nil =>
    intro b hlen _ _ hv
    cases b with
    | nil => simp [valBE] at hv
    | cons x r => simp at hlen
  | cons x as ih =>
    intro b hlen ha hb hv
    cases b with
    | nil => simp at hlen
    | cons y bs =>
      simp only [List.length_cons] at hlen
      have hlen2 : as.length = bs.length := by omega
      simp only [valBE, hlen2] at hv
      rcases Nat.lt_trichotomy x y with hxy | hxy | hxy
      · simp [lexLtB, hxy]
      · subst hxy
        have hv2 : valBE as < valBE bs := Nat.add_lt_add_iff_left.mp hv
        have := ih bs hlen2 (fun d hd => ha d (by simp [hd]))
          (fun d hd => hb d (by simp [hd])) hv2
        simp [lexLtB, lt_irrefl, this]
      · exfalso
        have hbs : valBE bs < 10 ^ bs.length :=
          valBE_lt bs (fun d hd => hb d (by simp [hd]))
        have h1 : y * 10 ^ bs.length + valBE bs < (y + 1) * 10 ^ bs.length := by
          rw [Nat.succ_mul]
          exact Nat.add_lt_add_left hbs _
        have h2 : (y + 1) * 10 ^ bs.length ≤ x * 10 ^ bs.length :=
          mul_le_mul_right' (by omega) _
        have h3 : x * 10 ^ bs.length ≤ x * 10 ^ bs.length + valBE as :=
          Nat.le_add_right _ _
        exact absurd (lt_of_lt_of_le (lt_of_lt_of_le h1 h2) h3) (Nat.lt_asymm hv)

theorem lexLtB_append (p : List Nat) : ∀ a b, lexLtB (p ++ a) (p ++ b) = lexLtB a b := by
  induction p with
  | nil => intro a b; rfl
  | cons x r ih => intro a b; simp [lexLtB, ih, lt_irrefl]

theorem lexLtB_map48 : ∀ a b : List Nat,
    lexLtB (a.map (fun d => d + 48)) (b.map (fun d => d + 48)) = lexLtB a b := by
  intro a
  induction a with
  | nil => intro b; cases b <;> rfl
  | cons x as ih =>
    intro b
    cases b with
    | nil => rfl
    | cons y bs =>
      simp only [List.map_cons]
      by_cases h1 : x < y
      · have h1b : x + 48 < y + 48 := by omega
        simp [lexLtB, h1, h1b]
      · by_cases h2 : x = y
        · subst h2
          simp [lexLtB, lt_irrefl, ih bs]
        · have h3 : ¬ (x + 48 < y + 48) := by omega
          have h4 : ¬ (x + 48 = y + 48) := by omega
          simp [lexLtB, h1, h2, h3, h4]

/-- C8 counterexample: the step-to-name mapping pinned by the notebook
(`checkpoint_` followed by the unpadded decimal step number, as in the
output `tmp/flax-checkpointing/checkpoint_3`) is not lexicographically
monotone: 3 < 10, yet the name generated for 10 compares lexicographically
before the name generated for 3, so names do not sort in numeric order. -/
theorem c8_counterexample : 3 < 10 ∧ lexLtB (stepName 10) (stepName 3) = true ∧
    lexLtB (stepName 3) (stepName 10) = false :=
  ⟨by norm_num, by rfl, by rfl⟩

/-- C8 amended: for steps m < n whose rendered decimal digit strings (as
they appear in the generated names, the step 0 being rendered as the
single digit 0) have the same length, the generated storage names do
compare lexicographically in the same order as the step numbers; with
digit counts differing, the order can invert (see the counterexample). -/
theorem c8_amended_equal_length_lex (m n : Nat) (hmn : m < n)
    (hlen : (natCodes m).length = (natCodes n).length) :
    lexLtB (stepName m) (stepName n) = true := by
  have hn0 : n ≠ 0 := by omega
  by_cases hm0 : m = 0
  · subst hm0
    have h480 : natCodes 0 = [48] := rfl
    rw [h480, natCodes, if_neg hn0] at hlen
    simp only [List.length_map, List.length_reverse, List.length_cons,
      List.length_nil] at hlen
    have hlen1 : (digitsRev n n).length = 1 := by omega
    cases hd : digitsRev n n with
    | nil => rw [hd] at hlen1; simp at hlen1
    | cons d rest =>
      cases rest with
      | cons d2 rest2 => rw [hd] at hlen1; simp at hlen1
      | nil =>
        have hval := digitsRev_correct n n (le_refl n)
        rw [hd] at hval
        simp only [ofDigitsLE] at hval
        have hdn : d = n := by omega
        subst hdn
        rw [stepName, stepName, h480, natCodes, if_neg hn0, hd]
        simp only [List.reverse_cons, List.reverse_nil, List.nil_append,
          List.map_cons, List.map_nil]
        rw [lexLtB_append, lexLtB, if_pos (by omega)]
  · have hn0b : n ≠ 0 := hn0
    rw [natCodes, natCodes, if_neg hm0, if_neg hn0b] at hlen
    simp only [List.length_map, List.length_reverse] at hlen
    rw [stepName, stepName, natCodes, natCodes, if_neg hm0, if_neg hn0b, lexLtB_append,
      lexLtB_map48]
    apply lexLtB_of_valBE
    · simp [hlen]
    · intro d hd; exact digitsRev_lt10 m m d (List.mem_reverse.mp hd)
    · intro d hd; exact digitsRev_lt10 n n d (List.mem_reverse.mp hd)
    · rw [valBE_reverse, valBE_reverse, digitsRev_correct m m (le_refl m),
        digitsRev_correct n n (le_refl n)]
      exact hmn

theorem c1_roundtrip_witness :
    shapeMatchT c1Tree c1Tree = true ∧ wfT c1Tree = true ∧ noDeviceT c1Tree = true ∧
    decode (encode c1Tree) (some c1Tree) = .ok c1Tree :=
  ⟨rfl, rfl, rfl, c1_decode_encode_roundtrip c1Tree c1Tree rfl rfl rfl⟩

theorem c2_overwrite_guard_witness :
    (∃ e ∈ c2Store.entries, 3 ≤ e.step) ∧
    save_checkpoint ⟨some 2, false⟩ c2Store 3 (.prim "x") =
      (c2Store, .error (.AlreadyExists 3)) :=
  ⟨⟨⟨5, stepName 5, encode (.prim "old")⟩, by simp [c2Store], by norm_num⟩,
    c2_overwrite_guard ⟨some 2, false⟩ c2Store 3 (.prim "x") rfl
      ⟨⟨5, stepName 5, encode (.prim "old")⟩, by simp [c2Store], by norm_num⟩⟩

theorem c3_retention_witness :
    (0 < 2 ∧ (c3Saves.map Prod.fst).Nodup) ∧
    ((∀ r ∈ (saveAllResults ⟨some 2, true⟩ ⟨[]⟩ c3Saves).2, r = .ok ()) ∧
      list_steps (saveAllResults ⟨some 2, true⟩ ⟨[]⟩ c3Saves).1 =
        keepLast 2 (sortAsc (c3Saves.map Prod.fst))) ∧
    keepLast 2 (sortAsc (c3Saves.map Prod.fst)) = [2, 3] :=
  ⟨⟨by norm_num, by decide⟩, c3_retention 2 c3Saves (by norm_num) (by decide), rfl⟩

theorem c4_schema_mismatch_witness :
    (dlookupD (.name "batch_stats") JDict.dnil = none ∧
      keyIn (.name "batch_stats") (nonFuncKeys c4Tmpl) = true ∧
      from_state_dict [CKey.name "model"] (.dict c4Tmpl) (.dict .dnil) =
        .error (.SchemaMismatch (.missingField (.name "batch_stats") [CKey.name "model"]))) ∧
    (keyIn (.name "batch_stats") (nonFuncKeys .dnil) = false ∧
      keyIn (.name "batch_stats") (dkeys c4Tmpl) = true ∧
      from_state_dict [CKey.name "model"] (.dict .dnil) (.dict c4Tmpl) =
        .error (.SchemaMismatch (.unknownField (.name "batch_stats") [CKey.name "model"]))) :=
  ⟨(c4_schema_mismatch_naming [CKey.name "model"] c4Tmpl .dnil).1 (.name "batch_stats") rfl,
    (c4_schema_mismatch_naming [CKey.name "model"] .dnil c4Tmpl).2.1
      (.name "batch_stats") rfl rfl⟩

theorem c6_restore_witness :
    restore_checkpoint ⟨[]⟩ none none = .error .NotFound ∧
    restore_checkpoint c6Store (some 7) none = .error .NotFound ∧
    (∃ e, e ∈ c6Store.entries ∧ (∀ e2 ∈ c6Store.entries, e2.step ≤ e.step) ∧
      restore_checkpoint c6Store none none = decode e.bytes none) :=
  ⟨(c6_restore_latest_or_notfound ⟨[]⟩ none).1 rfl,
    (c6_restore_latest_or_notfound c6Store none).2.1 7 rfl,
    (c6_restore_latest_or_notfound c6Store none).2.2 (by decide) (by simp [c6Store])⟩

theorem c8_amended_witness :
    (3 < 7 ∧ (natCodes 3).length = (natCodes 7).length) ∧
    lexLtB (stepName 3) (stepName 7) = true ∧
    ((0 < 5 ∧ (natCodes 0).length = (natCodes 5).length) ∧
      lexLtB (stepName 0) (stepName 5) = true) :=
  ⟨⟨by norm_num, rfl⟩, c8_amended_equal_length_lex 3 7 (by norm_num) rfl,
    ⟨by norm_num, rfl⟩, c8_amended_equal_length_lex 0 5 (by norm_num) rfl⟩

theorem c9_function_fields_witness :
    (richMatchT c9Tmpl c9Tree = true ∧ wfT c9Tree = true) ∧
    ((∀ f, Tok.tFunc f ∉ encode c9Tree) ∧
      decode (encode c9Tree) (some c9Tmpl) = .ok (restoredT c9Tmpl c9Tree) ∧
      funcNamesT (restoredT c9Tmpl c9Tree) = funcNamesT c9Tmpl ∧
      noDeviceT (restoredT c9Tmpl c9Tree) = true ∧
      to_state_dict (restoredT c9Tmpl c9Tree) = to_state_dict c9Tree) ∧
    funcNamesT (restoredT c9Tmpl c9Tree) = ["tmpl_apply", "tmpl_tx"] :=
  ⟨⟨rfl, rfl⟩, c9_function_fields_and_host_arrays c9Tree c9Tmpl rfl rfl, rfl⟩

theorem c10_template_shapes_witness :
    (compatT c10Tmpl c10Tree = true ∧ wfT c10Tree = true) ∧
    (decode (encode c10Tree) (some c10Tmpl) = .ok (restoredT c10Tmpl c10Tree) ∧
      to_state_dict (restoredT c10Tmpl c10Tree) = to_state_dict c10Tree ∧
      (∀ d sh dt da d2 sh2 dt2 da2,
        decode (encode (.arr d2 sh2 dt2 da2)) (some (.arr d sh dt da)) =
          .ok (.arr false sh2 dt2 da2))) ∧
    restoredT c10Tmpl c10Tree = c10Tree :=
  ⟨⟨rfl, rfl⟩, c10_template_shapes_not_binding c10Tree c10Tmpl rfl rfl, rfl⟩
